import Mathlib

/-!
Shallow embedding of `src/cyk_parser.py`: the symbol/rule/grammar data model,
the textual rule decoder (`Grammar.add_rule`), the five normalization passes,
and the CYK recognizer with derivation reconstruction.  Python strings are
modeled as `String`/`List Char` (`str.isupper`/`str.isdigit` as the ASCII
`Char.isUpper`/`Char.isDigit`), Python `set`s of rules/symbols as
insertion-ordered duplicate-free lists (contents coincide with the Python
sets; only iteration order is a modeling choice, noted where it matters),
exceptions as an error type threaded through `Except`, and the `while`
fixed-point loops as fuel-bounded iteration with fuel large enough that the
fixed point is always reached (each productive iteration strictly grows a set
bounded by the grammar size).
-/

namespace CykModel

/-- The exceptions the Python source can raise, as an enumeration:
`ValueError("Invalid rule format")`, `ValueError` for the two nonterminal
naming violations, `ValueError("Rule position must be 1 or greater")`, the
`TypeError` raised by slicing the rule set (`self.rules[insert_index:]`),
and the `IndexError` from `value[0]` on an empty name. -/
inductive PyErr where
  | invalidRuleFormat
  | ntNotUppercase
  | ntTooLong
  | invalidPosition
  | setSliceTypeError
  | indexError
deriving DecidableEq, Repr

/-- The apostrophe character (ASCII 39). -/
def apoC : Char := Char.ofNat 39

/-- `Symbol`: `Terminal` holds the single character the tokenizer stored;
`Nonterminal` holds its name.  The category corresponds to the Python
`isinstance` distinction; the stored `value` is what `__eq__`/`__hash__`
look at. -/
inductive Sym where
  | T : Char → Sym
  | N : String → Sym
deriving DecidableEq, Repr

/-- `Symbol.value` (terminals store a one-character string). -/
def symValue : Sym → String
  | .T c => String.singleton c
  | .N v => v

/-- `isinstance(symbol, Nonterminal)`. -/
def isNT : Sym → Bool
  | .T _ => false
  | .N _ => true

/-- `Symbol.__eq__`: both categories are `Symbol` instances, so the code
compares only the underlying values. -/
def pyEq (a b : Sym) : Bool := symValue a == symValue b

/-- `Symbol.__hash__` is `hash(self.value)`; the Python string hash is an
unspecified function of the value, modeled as a parameter `h`. -/
def symHash (h : String → Int) (s : Sym) : Int := h (symValue s)

/-- `Nonterminal.__init__`: `value[0]` raises `IndexError` on an empty name,
then the uppercase check, then the 3-character cap. -/
def mkNonterminal (v : String) : Except PyErr Sym :=
  match v.data with
  | [] => .error .indexError
  | c :: _ =>
    if !c.isUpper then .error .ntNotUppercase
    else if v.data.length > 3 then .error .ntTooLong
    else .ok (.N v)

/-- `str.split("->")`: left-to-right scan, non-overlapping. -/
def splitArrowGo : List Char → List Char → List (List Char)
  | [], cur => [cur.reverse]
  | [c], cur => [(c :: cur).reverse]
  | c :: d :: rest, cur =>
    if c = '-' ∧ d = '>' then cur.reverse :: splitArrowGo rest []
    else splitArrowGo (d :: rest) (c :: cur)

def splitArrow (l : List Char) : List (List Char) := splitArrowGo l []

/-- `str.strip()`. -/
def pyStrip (l : List Char) : List Char :=
  ((l.dropWhile Char.isWhitespace).reverse.dropWhile Char.isWhitespace).reverse

/-- The right-hand-side tokenizer loop of `add_rule`: an uppercase character
starts a nonterminal and may absorb one following digit or apostrophe; an
apostrophe is appended to an immediately preceding nonterminal if there is
one (re-validating the name, which can overflow the 3-character cap) and is
a terminal otherwise; anything else is a terminal. -/
def tokenizeRHSF : Nat → List Char → List Sym → Except PyErr (List Sym)
  | _, [], acc => .ok acc
  | 0, _ :: _, acc => .ok acc
  | fuel + 1, c :: rest, acc =>
    if c.isUpper then
      match rest with
      | d :: rest2 =>
        if d.isDigit || d == apoC then
          match mkNonterminal ⟨[c, d]⟩ with
          | .error e => .error e
          | .ok nt => tokenizeRHSF fuel rest2 (acc ++ [nt])
        else
          match mkNonterminal ⟨[c]⟩ with
          | .error e => .error e
          | .ok nt => tokenizeRHSF fuel (d :: rest2) (acc ++ [nt])
      | [] =>
        match mkNonterminal ⟨[c]⟩ with
        | .error e => .error e
        | .ok nt => .ok (acc ++ [nt])
    else if c == apoC then
      match acc.getLast? with
      | some s =>
        if isNT s then
          match mkNonterminal ⟨(symValue s).data ++ [apoC]⟩ with
          | .error e => .error e
          | .ok nt => tokenizeRHSF fuel rest (acc.dropLast ++ [nt])
        else tokenizeRHSF fuel rest (acc ++ [.T c])
      | none => tokenizeRHSF fuel rest (acc ++ [.T c])
    else tokenizeRHSF fuel rest (acc ++ [.T c])

/-- The tokenizer entered with enough fuel that the bound never binds (each
step consumes at least one character). -/
def tokenizeRHS (l : List Char) (acc : List Sym) : Except PyErr (List Sym) :=
  tokenizeRHSF (l.length + 1) l acc

/-- The body of `add_rule` after the split: exactly two parts, strip both,
build the left nonterminal, then either the epsilon cases
(empty / whitespace / `eps` / `ε`) or the tokenizer on the text with spaces
removed. -/
def parseParts : List (List Char) → Except PyErr (Sym × List Sym)
  | [lhsPart, rhsPart] =>
    match mkNonterminal ⟨pyStrip lhsPart⟩ with
    | .error e => .error e
    | .ok lhs =>
      if pyStrip rhsPart = []
          ∨ (pyStrip rhsPart ≠ [] ∧ (pyStrip rhsPart).all Char.isWhitespace)
          ∨ pyStrip rhsPart = "eps".data ∨ pyStrip rhsPart = "ε".data then
        .ok (lhs, [])
      else
        match tokenizeRHS ((pyStrip rhsPart).filter (fun c => c ≠ ' ')) [] with
        | .error e => .error e
        | .ok rhs => .ok (lhs, rhs)
  | _ => .error .invalidRuleFormat

/-- The decoding part of `Grammar.add_rule`: split on `->`, then decode the
two parts. -/
def parseRuleChars (l : List Char) : Except PyErr (Sym × List Sym) :=
  parseParts (splitArrow l)

/-- `GrammarRule`: left-hand symbol, right-hand symbol sequence (empty for
epsilon), optional ordinal. -/
structure PyRule where
  lhs : Sym
  rhs : List Sym
  num : Option Nat
deriving DecidableEq, Repr

/-- `GrammarRule.__eq__`: same lhs and pointwise-equal rhs under the
value-based symbol equality; the ordinal never participates. -/
def ruleEqPy (a b : PyRule) : Bool :=
  pyEq a.lhs b.lhs && a.rhs.length == b.rhs.length &&
    (a.rhs.zip b.rhs).all (fun p => pyEq p.1 p.2)

/-- `Grammar`: the rule set (modeled as an insertion-ordered duplicate-free
list) and the `_next_rule_number` counter. -/
structure PyGrammar where
  rules : List PyRule
  nextNum : Nat
deriving DecidableEq, Repr

def emptyGrammar : PyGrammar := ⟨[], 1⟩

/-- Sort key comparison used by `get_rules_list`: ordinals ascending, a
missing ordinal sorts as `float('inf')`. -/
def numLt : Option Nat → Option Nat → Bool
  | some a, some b => a < b
  | some _, none => true
  | none, _ => false

/-- Stable insertion used to model Python's stable `sorted`. -/
def sortIns (r : PyRule) : List PyRule → List PyRule
  | [] => [r]
  | x :: xs => if numLt r.num x.num then r :: x :: xs else x :: sortIns r xs

/-- `Grammar.get_rules_list()`: the rules in ordinal order (stable). -/
def rulesSorted (g : PyGrammar) : List PyRule :=
  g.rules.foldl (fun acc r => sortIns r acc) []

/-- `Grammar.add_rule(rule_str, position)`.  Returns the raised exception (if
any) together with the grammar state after the call; every raise in the
source happens before any mutation, which the translation makes explicit by
returning the input grammar unchanged on each error path.  The positional
branch mirrors the source exactly: after the `position < 1` check it slices
the rule *set*, which raises `TypeError` before touching any rule. -/
def addRule (g : PyGrammar) (ruleStr : String) (position : Option Int) :
    Option PyErr × PyGrammar :=
  match parseRuleChars ruleStr.data with
  | .error e => (some e, g)
  | .ok (lhs, rhs) =>
    if g.rules.any (fun r => ruleEqPy r ⟨lhs, rhs, none⟩) then (none, g)
    else
      match position with
      | none => (none, ⟨g.rules ++ [⟨lhs, rhs, some g.nextNum⟩], g.nextNum + 1⟩)
      | some p =>
        if p < 1 then (some .invalidPosition, g)
        else (some .setSliceTypeError, g)

/-- `add_rule` without a position, failures propagated (how the pipeline
stages feed rules into a fresh grammar). -/
def addRuleE (g : PyGrammar) (ruleStr : String) : Except PyErr PyGrammar :=
  match addRule g ruleStr none with
  | (none, g2) => .ok g2
  | (some e, _) => .error e

/-- Build a grammar from rule lines, as the ingestion loop does. -/
def buildGrammar (l : List String) : Except PyErr PyGrammar :=
  l.foldlM addRuleE emptyGrammar

/-- `''.join(str(symbol) for symbol in rhs)`: the space-free rendering the
pipeline stages use to feed rules to the next stage. -/
def joinVals (rhs : List Sym) : String :=
  rhs.foldl (fun s x => s ++ symValue x) ""

/-! ### `remove_nonproductive` -/

/-- One sweep of `find_productive_nonterminals`: productive-set values plus a
flag recording whether the sweep added anything. -/
def prodPass (rules : List PyRule) (st : List String × Bool) : List String × Bool :=
  rules.foldl (fun st rule =>
    if st.1.contains (symValue rule.lhs) then st
    else if rule.rhs.all (fun s => !isNT s || st.1.contains (symValue s)) then
      (st.1 ++ [symValue rule.lhs], true)
    else st) st

/-- The `while changed` fixed-point loop; each productive sweep adds at least
one left-hand value, so `rules.length + 1` sweeps always reach the fixpoint. -/
def findProductive (rules : List PyRule) : Nat → List String → List String
  | 0, prod => prod
  | fuel + 1, prod =>
    let st := prodPass rules (prod, false)
    if st.2 then findProductive rules fuel st.1 else st.1

def removeNonproductive (g : PyGrammar) : Except PyErr PyGrammar :=
  let rules := rulesSorted g
  let prod := findProductive rules (rules.length + 1) []
  rules.foldlM (fun ng rule =>
    if prod.contains (symValue rule.lhs) then
      if rule.rhs.all (fun s => !isNT s || prod.contains (symValue s)) then
        addRuleE ng (symValue rule.lhs ++ " -> " ++ joinVals rule.rhs)
      else .ok ng
    else .ok ng) emptyGrammar

/-! ### `remove_unreachable` -/

/-- One sweep of the reachability loop (the set mutates during the sweep,
which the fold threading preserves). -/
def reachPass (rules : List PyRule) (reach : List Sym) : List Sym :=
  rules.foldl (fun reach rule =>
    if reach.any (pyEq rule.lhs) then
      rule.rhs.foldl (fun reach s =>
        if isNT s then (if reach.any (pyEq s) then reach else reach ++ [s])
        else reach) reach
    else reach) reach

/-- The `while old_size != new_size` loop: sweeps until a sweep adds nothing.
The reachable set is bounded by the start symbol plus every right-hand
occurrence, which bounds the number of growing sweeps. -/
def findReachable (rules : List PyRule) : Nat → List Sym → List Sym
  | 0, reach => reach
  | fuel + 1, reach =>
    let reach2 := reachPass rules reach
    if reach2.length = reach.length then reach2
    else findReachable rules fuel reach2

def removeUnreachable (g : PyGrammar) (start : String) : Except PyErr PyGrammar := do
  let s0 ← mkNonterminal start
  let rules := rulesSorted g
  let fuel := 2 + rules.foldl (fun n r => n + r.rhs.length) 0
  let reach := findReachable rules fuel [s0]
  rules.foldlM (fun ng rule =>
    if reach.any (pyEq rule.lhs) then
      addRuleE ng (symValue rule.lhs ++ "->" ++ joinVals rule.rhs)
    else .ok ng) emptyGrammar

/-! ### `remove_epsilon_rules` -/

/-- Direct epsilon producers: left-hand symbols of empty-RHS rules. -/
def directEps (rules : List PyRule) : List Sym :=
  rules.foldl (fun eps rule =>
    if rule.rhs.isEmpty then
      (if eps.any (pyEq rule.lhs) then eps else eps ++ [rule.lhs])
    else eps) []

/-- One sweep of the indirect-producer closure. -/
def epsPass (rules : List PyRule) (st : List Sym × Bool) : List Sym × Bool :=
  rules.foldl (fun st rule =>
    if st.1.any (pyEq rule.lhs) then st
    else if !rule.rhs.isEmpty && rule.rhs.all (fun s => st.1.any (pyEq s)) then
      (st.1 ++ [rule.lhs], true)
    else st) st

def findEpsProducers (rules : List PyRule) : Nat → List Sym → List Sym
  | 0, eps => eps
  | fuel + 1, eps =>
    let st := epsPass rules (eps, false)
    if st.2 then findEpsProducers rules fuel st.1 else st.1

/-- The subset of the RHS kept for a given binary `mask`: position
`eps_positions[b]` is skipped when bit `b` of the mask is clear. -/
def epsMaskRHS (rhs : List Sym) (epsPositions : List Nat) (mask : Nat) : List Sym :=
  let skip := (List.range epsPositions.length).filterMap
    (fun b => if mask.testBit b then none else some (epsPositions.getD b 0))
  (rhs.enum.filter (fun p => !skip.contains p.1)).map (fun p => p.2)

/-- The per-rule expansion: epsilon rules are dropped; rules with no nullable
occurrence are re-encoded as-is; otherwise every mask in `range(2**k)` emits
the corresponding sub-RHS when non-empty.  All emissions go through the
textual encoding and `add_rule`. -/
def epsExpandRule (eps : List Sym) (ng : PyGrammar) (rule : PyRule) :
    Except PyErr PyGrammar :=
  if rule.rhs.isEmpty then .ok ng
  else
    let epsPositions := (rule.rhs.enum.filter (fun p => eps.any (pyEq p.2))).map
      (fun p => p.1)
    if epsPositions.isEmpty then
      addRuleE ng (symValue rule.lhs ++ " -> " ++ joinVals rule.rhs)
    else
      (List.range (2 ^ epsPositions.length)).foldlM (fun ng mask =>
        let newRhs := epsMaskRHS rule.rhs epsPositions mask
        if newRhs.isEmpty then .ok ng
        else addRuleE ng (symValue rule.lhs ++ " -> " ++ joinVals newRhs)) ng

def removeEpsilonRules (g : PyGrammar) (start : Sym) : Except PyErr PyGrammar := do
  let rules := rulesSorted g
  let eps := findEpsProducers rules (rules.length + 1) (directEps rules)
  let ng0 ←
    if eps.any (pyEq start) then do
      let newStart ← mkNonterminal ⟨(symValue start).data ++ ['1']⟩
      let ng1 ← addRuleE emptyGrammar (symValue newStart ++ " -> " ++ symValue start)
      addRuleE ng1 (symValue newStart ++ " -> ε")
    else pure emptyGrammar
  rules.foldlM (epsExpandRule eps) ng0

/-! ### `eliminate_chain_rules` -/

/-- A chain (unit) rule: RHS of length one holding a nonterminal. -/
def isUnitRule (r : PyRule) : Bool :=
  match r.rhs with
  | [s] => isNT s
  | _ => false

/-- `find_chain`, with the visited set threaded exactly as the shared mutable
Python set is; recursion depth is bounded by the number of distinct symbols,
covered by the fuel the caller supplies. -/
def findChain (rules : List PyRule) : Nat → Sym → List Sym → List Sym × List Sym
  | 0, _, visited => ([], visited)
  | fuel + 1, nt, visited =>
    if visited.any (pyEq nt) then ([], visited)
    else
      rules.foldl (fun (st : List Sym × List Sym) rule =>
        match rule.rhs with
        | [s] =>
          if pyEq rule.lhs nt && isNT s then
            let sub := findChain rules fuel s st.2
            (sub.1.foldl (fun ch x => if ch.any (pyEq x) then ch else ch ++ [x]) st.1,
             sub.2)
          else st
        | _ => st) ([nt], visited ++ [nt])

def eliminateChainRules (g : PyGrammar) : Except PyErr PyGrammar := do
  let raw := g.rules
  let st ← raw.foldlM (fun (st : PyGrammar × List String) rule =>
      let chain := (findChain raw (2 * raw.length + 2) rule.lhs []).1
      chain.foldlM (fun st b =>
        raw.foldlM (fun (st : PyGrammar × List String) ruleB =>
          if pyEq ruleB.lhs b && !isUnitRule ruleB then
            let s := symValue rule.lhs ++ " -> " ++ joinVals ruleB.rhs
            if st.2.contains s then .ok st
            else do
              let ng ← addRuleE st.1 s
              .ok (ng, st.2 ++ [s])
          else .ok st) st) st)
    (emptyGrammar, ([] : List String))
  .ok st.1

/-! ### `to_chomsky_normal_form` -/

/-- `get_new_nonterminal`: names `X1, X2, ...` skipping names already used as
a left-hand side of the *input* grammar; the counter persists across calls.
The name is validated (`Nonterminal`), which fails once the counter needs
three digits.  The fuel covers the at most `gRaw.length` possible collisions,
so the fuel-exhaustion branch is unreachable. -/
def getNewNonterminal (gRaw : List PyRule) : Nat → Nat → Except PyErr (Sym × Nat)
  | 0, _ => .error .indexError
  | fuel + 1, counter =>
    let name : String := ⟨'X' :: Nat.toDigits 10 counter⟩
    if gRaw.any (fun r => symValue r.lhs == name) then
      getNewNonterminal gRaw fuel (counter + 1)
    else
      match mkNonterminal name with
      | .error e => .error e
      | .ok nt => .ok (nt, counter + 1)

/-- `cnf.rules.add(rule)`: the direct set insertion (deduplicating under the
structural rule equality, leaving `_next_rule_number` untouched). -/
def setAddRule (g : PyGrammar) (r : PyRule) : PyGrammar :=
  if g.rules.any (fun x => ruleEqPy x r) then g else ⟨g.rules ++ [r], g.nextNum⟩

/-- Terminal isolation for one RHS symbol: nonterminals pass through; a
terminal is replaced by its dedicated fresh nonterminal, created (together
with its unary rule, via `add_rule`) on first use. -/
def isolateStep (gRaw : List PyRule)
    (st : List Sym × PyGrammar × List (String × Sym) × Nat) (sym : Sym) :
    Except PyErr (List Sym × PyGrammar × List (String × Sym) × Nat) :=
  let (newRhs, cnf, tr, counter) := st
  if !isNT sym then
    match tr.find? (fun p => p.1 == symValue sym) with
    | some p => .ok (newRhs ++ [p.2], cnf, tr, counter)
    | none =>
      match getNewNonterminal gRaw (gRaw.length + 2) counter with
      | .error e => .error e
      | .ok r =>
        match addRuleE cnf (symValue r.1 ++ " -> " ++ symValue sym) with
        | .error e => .error e
        | .ok cnf2 =>
          .ok (newRhs ++ [r.1], cnf2, tr ++ [(symValue sym, r.1)], r.2)
  else .ok (newRhs ++ [sym], cnf, tr, counter)

/-- The first CNF loop: rules with RHS length at least 2 get their terminals
isolated and are queued in `new_rules`; shorter rules are inserted into the
output set as they are (ordinal dropped, as `GrammarRule(lhs, rhs)` has
`rule_number=None`). -/
def cnfFirstLoop (gRaw : List PyRule) (sorted : List PyRule) :
    Except PyErr ((PyGrammar × List (String × Sym) × Nat) × List (Sym × List Sym)) :=
  sorted.foldlM (fun st rule =>
    let ((cnf, tr, counter), newRules) := st
    if rule.rhs.length ≥ 2 then
      match rule.rhs.foldlM (isolateStep gRaw) ([], cnf, tr, counter) with
      | .error e => .error e
      | .ok (newRhs, cnf2, tr2, c2) =>
        .ok ((cnf2, tr2, c2), newRules ++ [(rule.lhs, newRhs)])
    else
      .ok ((setAddRule cnf ⟨rule.lhs, rule.rhs, none⟩, tr, counter), newRules))
    ((emptyGrammar, [], 1), [])

/-- The `while len(current_rhs) > 2` binarization loop: repeatedly replace
the rightmost two symbols by a fresh nonterminal with a direct binary rule.
Fuel is the starting length, which bounds the iterations. -/
def binarizeLoop (gRaw : List PyRule) :
    Nat → List Sym → PyGrammar → Nat → Except PyErr (List Sym × PyGrammar × Nat)
  | 0, cur, cnf, counter => .ok (cur, cnf, counter)
  | fuel + 1, cur, cnf, counter =>
    if cur.length > 2 then
      match getNewNonterminal gRaw (gRaw.length + 2) counter with
      | .error e => .error e
      | .ok r =>
        let cnf2 := setAddRule cnf ⟨r.1, cur.drop (cur.length - 2), none⟩
        binarizeLoop gRaw fuel (cur.take (cur.length - 2) ++ [r.1]) cnf2 r.2
    else .ok (cur, cnf, counter)

/-- Final renumbering: every rule gets ordinal `1..N` in the ordered-view
sequence, and the counter becomes `N + 1`. -/
def renumber (g : PyGrammar) : PyGrammar :=
  let sorted := rulesSorted g
  ⟨sorted.enum.map (fun p => ⟨p.2.lhs, p.2.rhs, some (p.1 + 1)⟩), sorted.length + 1⟩

def toChomskyNormalForm (g : PyGrammar) : Except PyErr PyGrammar := do
  let st ← cnfFirstLoop g.rules (rulesSorted g)
  let ((cnf0, _, counter0), newRules) := st
  let out ← newRules.foldlM (fun (st : PyGrammar × Nat) p =>
      match binarizeLoop g.rules (p.2.length + 1) p.2 st.1 st.2 with
      | .error e => .error e
      | .ok (cur, cnf2, c2) =>
        if cur.isEmpty then .ok (cnf2, c2)
        else .ok (setAddRule cnf2 ⟨p.1, cur, none⟩, c2))
    (cnf0, counter0)
  .ok (renumber out.1)

/-! ### `CYKParser.__init__` -/

structure CYKParser where
  start : Option Sym
  grammar : PyGrammar
deriving DecidableEq, Repr

/-- `CYKParser.__init__`: the start symbol is the first ordered rule's LHS of
the *input* grammar (never updated afterwards); with a start present the five
passes run in order, otherwise the grammar is kept as given. -/
def cykInit (g : PyGrammar) : Except PyErr CYKParser :=
  match (rulesSorted g).head? with
  | none => .ok ⟨none, g⟩
  | some r0 => do
    let g1 ← removeNonproductive g
    let g2 ← removeUnreachable g1 (symValue r0.lhs)
    let g3 ← removeEpsilonRules g2 r0.lhs
    let g4 ← eliminateChainRules g3
    let g5 ← toChomskyNormalForm g4
    .ok ⟨some r0.lhs, g5⟩

/-! ### `CYKParser.parse` and the recognition table

The Python table is a dict from `(offset, span)` to a set of
`(nonterminal, rule_number)` pairs; a key is present exactly when its set is
non-empty, so the model represents a cell as a (possibly empty) list, with
membership/deduplication under the Python tuple equality (value-based on the
symbol).  The mutable fill loop writes a `(i, j)` cell only during round `j`
and reads only spans shorter than `j`, so the cell contents are reproduced by
recursion on the span; the list order models set iteration order as insertion
order, a choice that affects only which justification the derivation trace
meets first (the set's real iteration order is unspecified). -/

abbrev Entry := Sym × Option Nat

/-- `set.add` on a table cell (tuple equality: value-based symbol equality
plus ordinal equality). -/
def addEntry (acc : List Entry) (e : Entry) : List Entry :=
  if acc.any (fun x => pyEq x.1 e.1 && x.2 == e.2) then acc else acc ++ [e]

/-- The base-case rule test: unary RHS holding a terminal whose value is the
word character. -/
def matchT (r : PyRule) (c : Char) : Bool :=
  match r.rhs with
  | [s] => !isNT s && symValue s == String.singleton c
  | _ => false

/-- The inductive-case rule test against a left and right table symbol. -/
def matchB (r : PyRule) (l rt : Sym) : Bool :=
  match r.rhs with
  | [x, y] => pyEq x l && pyEq y rt
  | _ => false

/-- `len(rule.rhs) == 2`. -/
def isBinary (r : PyRule) : Bool := r.rhs.length == 2

/-- `j = 1` loop body: scan the rules in ordinal order for this position. -/
def baseLoop (c : Char) : List PyRule → List Entry → List Entry
  | [], acc => acc
  | r :: rs, acc =>
    baseLoop c rs (if matchT r c then addEntry acc (r.lhs, r.num) else acc)

def baseCell (g : PyGrammar) (w : List Char) (i : Nat) : List Entry :=
  match w.get? i with
  | some c => baseLoop c (rulesSorted g) []
  | none => []

def rightLoop (r : PyRule) (l : Entry) : List Entry → List Entry → List Entry
  | [], acc => acc
  | rt :: rts, acc =>
    rightLoop r l rts (if matchB r l.1 rt.1 then addEntry acc (r.lhs, r.num) else acc)

def leftLoop (r : PyRule) (R : List Entry) : List Entry → List Entry → List Entry
  | [], acc => acc
  | l :: ls, acc => leftLoop r R ls (rightLoop r l R acc)

/-- Per-rule body of the fill loop: binary rules only, guarded by the key
presence (non-emptiness) of both sub-cells. -/
def ruleLoop (L R : List Entry) : List PyRule → List Entry → List Entry
  | [], acc => acc
  | r :: rs, acc =>
    ruleLoop L R rs
      (if isBinary r then (if L ≠ [] ∧ R ≠ [] then leftLoop r R L acc else acc)
       else acc)

def kLoop (g : PyGrammar) (tbl : Nat → Nat → List Entry) (i j : Nat) :
    List Nat → List Entry → List Entry
  | [], acc => acc
  | k :: ks, acc =>
    kLoop g tbl i j ks (ruleLoop (tbl i k) (tbl (i + k) (j - k)) (rulesSorted g) acc)

/-- Fill of cell `(i, j)` for `j ≥ 2` from the sub-span cells. -/
def fillCell (g : PyGrammar) (tbl : Nat → Nat → List Entry) (i j : Nat) :
    List Entry :=
  kLoop g tbl i j (List.range' 1 (j - 1)) []

/-- The recognition table by recursion on the span, fuel-bounded (sub-spans
are strictly shorter, so fuel `j` suffices for cell `(i, j)`); spans outside
the filled triangle have no key, i.e. an empty cell. -/
def tableF (g : PyGrammar) (w : List Char) : Nat → Nat → Nat → List Entry
  | 0, _, _ => []
  | fuel + 1, i, j =>
    if j = 1 then baseCell g w i
    else if 2 ≤ j ∧ i + j ≤ w.length then fillCell g (tableF g w fuel) i j
    else []

def cell (g : PyGrammar) (w : List Char) (i j : Nat) : List Entry :=
  tableF g w j i j

/-! `get_derivation_rules` / `_trace_rules`.  The trace is parametrized by
the table so that the dependence of its answer on the cells' iteration order
can be stated. -/

/-- `j = 1` case of `_trace_rules`. -/
def traceBase (g : PyGrammar) (w : List Char) (i : Nat) (cur : Sym) :
    List (Option Nat) :=
  match w.get? i with
  | none => []
  | some c =>
    match (rulesSorted g).find? (fun r => matchT r c && pyEq r.lhs cur) with
    | some r => [r.num]
    | none => []

/-- Innermost search: first rule (in ordinal order) matching the fixed left
symbol and a right entry, scanning the right cell in its iteration order. -/
def findRight (rules : List PyRule) (cur l : Sym) :
    List Entry → Option (PyRule × Sym)
  | [] => none
  | rt :: rts =>
    match rules.find? (fun r => pyEq r.lhs cur && matchB r l rt.1) with
    | some r => some (r, rt.1)
    | none => findRight rules cur l rts

def findLeft (rules : List PyRule) (cur : Sym) (R : List Entry) :
    List Entry → Option (PyRule × Sym × Sym)
  | [] => none
  | l :: ls =>
    match findRight rules cur l.1 R with
    | some p => some (p.1, l.1, p.2)
    | none => findLeft rules cur R ls

/-- Split-point loop of `_trace_rules`: first `k` (ascending) whose two
sub-cells are present and yield a justifying combination. -/
def findK (rules : List PyRule) (tbl : Nat → Nat → List Entry) (i j : Nat)
    (cur : Sym) : List Nat → Option (Nat × PyRule × Sym × Sym)
  | [] => none
  | k :: ks =>
    if tbl i k ≠ [] ∧ tbl (i + k) (j - k) ≠ [] then
      match findLeft rules cur (tbl (i + k) (j - k)) (tbl i k) with
      | some p => some (k, p.1, p.2.1, p.2.2)
      | none => findK rules tbl i j cur ks
    else findK rules tbl i j cur ks

/-- `_trace_rules`, fuel-bounded on the span (recursive spans are strictly
shorter). -/
def traceF (g : PyGrammar) (tbl : Nat → Nat → List Entry) (w : List Char) :
    Nat → Nat → Nat → Sym → List (Option Nat)
  | 0, _, _, _ => []
  | fuel + 1, i, j, cur =>
    if j = 1 then traceBase g w i cur
    else
      match findK (rulesSorted g) tbl i j cur (List.range' 1 (j - 1)) with
      | some (k, r, lNt, rtNt) =>
        [r.num] ++ traceF g tbl w fuel i k lNt
          ++ traceF g tbl w fuel (i + k) (j - k) rtNt
      | none => []

/-- `get_derivation_rules`: the guards (`(0, n)` present, a start symbol,
the looked-up start rule number truthy — `None` and `0` are both falsy in
Python) and then the trace rooted at `(0, n, start)`. -/
def getDerivationRules (P : CYKParser) (w : List Char) : List (Option Nat) :=
  let n := w.length
  let c := cell P.grammar w 0 n
  match P.start with
  | none => []
  | some s =>
    if c = [] then []
    else
      match (c.find? (fun e => pyEq e.1 s)).map (fun e => e.2) with
      | none => []
      | some none => []
      | some (some 0) => []
      | some (some (_ + 1)) => traceF P.grammar (cell P.grammar w) w n 0 n s

/-- `CYKParser.parse`: accepted iff the `(0, n)` cell holds the start symbol
(`any` over the empty cell is already false, matching the key-presence
guard); on success the derivation is reconstructed, otherwise
`(False, None)`. -/
def cykParse (P : CYKParser) (w : List Char) : Bool × Option (List (Option Nat)) :=
  match P.start with
  | none => (false, none)
  | some s =>
    if (cell P.grammar w 0 w.length).any (fun e => pyEq e.1 s) then
      (true, some (getDerivationRules P w))
    else (false, none)

/-- Build the parser and run one recognition query. -/
def runParse (g : PyGrammar) (w : List Char) :
    Except PyErr (Bool × Option (List (Option Nat))) :=
  (cykInit g).map (fun P => cykParse P w)

/-! ### Spec-side notions -/

/-- Modelled from the spec: the standard context-free derivation relation
("G derives w").  `Gen rs αs w` holds when the sentential form `αs` derives
the terminal word `w` using the rules `rs`: the empty form derives the empty
word, a leading terminal contributes its character, and a leading symbol that
is some rule's left-hand side may be expanded by that rule's right-hand side. -/
inductive Gen (rs : List PyRule) : List Sym → List Char → Prop where
  | nil : Gen rs [] []
  | term (c : Char) (αs : List Sym) (w : List Char) :
      Gen rs αs w → Gen rs (Sym.T c :: αs) (c :: w)
  | expand (r : PyRule) (αs : List Sym) (w1 w2 : List Char) :
      r ∈ rs → Gen rs r.rhs w1 → Gen rs αs w2 →
      Gen rs (r.lhs :: αs) (w1 ++ w2)

/-- Modelled from the spec: the Chomsky-normal-form rule shape — RHS of
length exactly 1 holding a terminal, or exactly 2 holding two nonterminals. -/
def isCNFShaped (r : PyRule) : Bool :=
  match r.rhs with
  | [s] => !isNT s
  | [x, y] => isNT x && isNT y
  | _ => false

/-- Modelled from the spec: the two rules the epsilon pass may introduce for
a nullable start named `startName`: `S1 -> S` and `S1 -> ε`. -/
def isStartException (startName : String) (r : PyRule) : Bool :=
  pyEq r.lhs (.N ⟨startName.data ++ ['1']⟩) &&
    (r.rhs == [Sym.N startName] || r.rhs == [])

/-! ### Concrete grammars the claims are settled on -/

def grammarOr (e : Except PyErr PyGrammar) : PyGrammar :=
  match e with
  | .ok g => g
  | .error _ => emptyGrammar

/-- `{S -> A B5 5, B5 -> ε, A -> a}` (the first rule entered as `S -> AB55`):
its language is the single word `a5`. -/
def gCorrupt : PyGrammar := grammarOr (buildGrammar ["S -> AB55", "B5 -> ε", "A -> a"])

/-- Scenario 3 of the spec: `{S -> A S, S -> ε, A -> a}`. -/
def gNullStart : PyGrammar := grammarOr (buildGrammar ["S -> AS", "S -> ε", "A -> a"])

/-- `{S -> e X p s, X -> ε}` (first rule entered as `S -> eXps`). -/
def gEps : PyGrammar := grammarOr (buildGrammar ["S -> eXps", "X -> ε"])

/-- A grammar whose (nullable) start symbol has a 3-character name. -/
def gAbc : PyGrammar := grammarOr (buildGrammar ["Abc -> ε"])

/-- `{S -> a}`. -/
def gOne : PyGrammar := grammarOr (buildGrammar ["S -> a"])

/-! ## Claim theorems -/

/-- C1.  The pipeline does not preserve the language: the grammar
`{S -> A B5 5, B5 -> ε, A -> a}` derives the word `a5`, but the constructed
parser rejects it.  The epsilon pass re-encodes the right-hand side
`[A, 5]` (obtained by dropping the nullable `B5`) as the text `A5`, which
`add_rule` re-tokenizes as the single nonterminal `A5`, corrupting the
grammar before chain elimination and CNF conversion. -/
theorem c1_language_not_preserved :
    buildGrammar ["S -> AB55", "B5 -> ε", "A -> a"] = .ok gCorrupt
    ∧ Gen gCorrupt.rules [Sym.N "S"] ['a', '5']
    ∧ runParse gCorrupt ['a', '5'] = .ok (false, none) := by
  refine ⟨rfl, ?_, rfl⟩
  have hB5T5 : Gen gCorrupt.rules [Sym.N "B5", Sym.T '5'] ['5'] := by
    have h := @Gen.expand gCorrupt.rules ⟨Sym.N "B5", [], some 2⟩
      [Sym.T '5'] [] ['5'] (by decide) Gen.nil (Gen.term '5' [] [] Gen.nil)
    simpa using h
  have hbody : Gen gCorrupt.rules [Sym.N "A", Sym.N "B5", Sym.T '5'] ['a', '5'] := by
    have h := @Gen.expand gCorrupt.rules ⟨Sym.N "A", [Sym.T 'a'], some 3⟩
      [Sym.N "B5", Sym.T '5'] ['a'] ['5'] (by decide)
      (Gen.term 'a' [] [] Gen.nil) hB5T5
    simpa using h
  have h := @Gen.expand gCorrupt.rules
    ⟨Sym.N "S", [Sym.N "A", Sym.N "B5", Sym.T '5'], some 1⟩
    [] ['a', '5'] [] (by decide) hbody Gen.nil
  simpa using h

/-- C2.  On Scenario 3's grammar `{S -> A S, S -> ε, A -> a}` the epsilon
pass does synthesize the `S1` rules (so `S1 -> ε` is in the final grammar),
but `parse("")` still returns `(False, None)`: the parser's start symbol is
captured from the input grammar before normalization and never updated to
`S1`, and the CYK loops never populate a span-0 cell. -/
theorem c2_empty_word_rejected :
    buildGrammar ["S -> AS", "S -> ε", "A -> a"] = .ok gNullStart
    ∧ (cykInit gNullStart).map (fun P =>
        P.grammar.rules.any (fun r => pyEq r.lhs (.N "S1") && r.rhs.isEmpty)) = .ok true
    ∧ runParse gNullStart [] = .ok (false, none) :=
  ⟨rfl, rfl, rfl⟩

/-- C3.  The pipeline output for `{S -> e X p s, X -> ε}` contains the rule
`S -> ε`, which has neither the CNF shape nor the form of one of the two
synthesized start rules (no `S1` is introduced here at all, since `S` is not
nullable): the epsilon pass re-encodes the right-hand side `[e, p, s]` as
the text `eps`, which `add_rule` decodes as an epsilon production. -/
theorem c3_non_cnf_rule_in_output :
    buildGrammar ["S -> eXps", "X -> ε"] = .ok gEps
    ∧ (cykInit gEps).map (fun P =>
        P.grammar.rules.any (fun r => !isCNFShaped r && !isStartException "S" r)) = .ok true
    ∧ (cykInit gEps).map (fun P =>
        P.grammar.rules.any (fun r => pyEq r.lhs (.N "S") && r.rhs.isEmpty)) = .ok true :=
  ⟨rfl, rfl, rfl⟩

/-- C5 counterexample.  `Nonterminal("A")` is constructible, and
`Terminal('A') == Nonterminal("A")` evaluates to `True`: `Symbol.__eq__`
only requires the other operand to be a `Symbol` and compares the values,
so the category does not participate, contrary to the claim. -/
theorem c5_counterexample :
    mkNonterminal "A" = .ok (Sym.N "A") ∧ pyEq (Sym.T 'A') (Sym.N "A") = true := by
  exact ⟨rfl, by decide⟩

/-- C5 amended.  Two symbols are equal exactly when their underlying values
are equal, irrespective of category, and equal symbols have equal hashes
(the hash is a function of the value alone). -/
theorem c5_value_equality (a b : Sym) (h : String → Int) :
    (pyEq a b = true ↔ symValue a = symValue b)
    ∧ (pyEq a b = true → symHash h a = symHash h b) := by
  have hv : pyEq a b = true ↔ symValue a = symValue b := by simp [pyEq]
  exact ⟨hv, fun hab => congrArg h (hv.mp hab)⟩

/-- Witness for C5's amended theorem at `Terminal('B')`, `Nonterminal("B")`
and a constant hash. -/
theorem c5_value_equality_witness :
    pyEq (Sym.T 'B') (Sym.N "B") = true
    ∧ symHash (fun _ => 0) (Sym.T 'B') = symHash (fun _ => 0) (Sym.N "B") :=
  ⟨by decide, (c5_value_equality (Sym.T 'B') (Sym.N "B") (fun _ => 0)).2 (by decide)⟩

/-- C6.  After building `{S -> a}`, inserting a new rule at position 1
raises the `TypeError` from slicing the rule set (before any ordinal is
touched, so the grammar is returned unchanged) — existing ordinals are never
shifted and the new rule is never inserted; position 0 raises
`InvalidPosition` as the claim says. -/
theorem c6_positional_insert_type_error :
    buildGrammar ["S -> a"] = .ok gOne
    ∧ addRule gOne "S -> b" (some 1) = (some .setSliceTypeError, gOne)
    ∧ addRule gOne "S -> b" (some 0) = (some .invalidPosition, gOne) :=
  ⟨rfl, rfl, rfl⟩

/-- C7.  The grammar `{Abc -> ε}` is accepted by `add_rule` (3-character
nullable start), but `CYKParser.__init__` raises: the epsilon pass builds
`Nonterminal("Abc" + "1")`, and the 4-character name fails the constructor's
own length cap. -/
theorem c7_three_char_nullable_start_crashes :
    buildGrammar ["Abc -> ε"] = .ok gAbc ∧ cykInit gAbc = .error .ntTooLong :=
  ⟨rfl, rfl⟩

/-- C9.  Whenever `add_rule` fails with `InvalidRuleFormat`,
`InvalidNonterminal` (either naming violation) or `InvalidPosition`, the
grammar state after the call is the input grammar: every raise in the source
occurs before any rule, ordinal or counter mutation. -/
theorem c9_failed_add_rule_preserves (g : PyGrammar) (s : String) (p : Option Int)
    (e : PyErr) (he : (addRule g s p).1 = some e)
    (_hk : e = .invalidRuleFormat ∨ e = .ntNotUppercase ∨ e = .ntTooLong
      ∨ e = .invalidPosition) :
    (addRule g s p).2 = g := by
  unfold addRule at he ⊢
  rcases hq : parseRuleChars s.data with e2 | pr
  · simp [hq]
  · simp only [hq] at he ⊢
    by_cases hd : g.rules.any (fun r => ruleEqPy r ⟨pr.1, pr.2, none⟩) = true
    · simp [hd]
    · simp only [Bool.not_eq_true] at hd
      rcases p with _ | pos
      · simp [hd] at he
      · by_cases hlt : pos < 1
        · simp [hd, hlt]
        · simp [hd, hlt]

/-- Witness for C9 at a malformed rule line on the empty grammar. -/
theorem c9_failed_add_rule_preserves_witness :
    (addRule emptyGrammar "junk" none).2 = emptyGrammar :=
  c9_failed_add_rule_preserves emptyGrammar "junk" none .invalidRuleFormat
    (by decide) (Or.inl rfl)

/-! ### Table lemmas for the parse contract (C8) -/

theorem baseLoop_nil (c : Char) (rs : List PyRule) (acc : List Entry)
    (h : ∀ r ∈ rs, matchT r c = false) : baseLoop c rs acc = acc := by
  induction rs generalizing acc with
  | nil => rfl
  | cons r rs ih =>
    rw [baseLoop, h r (List.mem_cons_self r rs), if_neg (by simp)]
    exact ih acc (fun x hx => h x (List.mem_cons_of_mem _ hx))

theorem ruleLoop_noop (L R : List Entry) (rs : List PyRule) (acc : List Entry)
    (h : L = [] ∨ R = []) : ruleLoop L R rs acc = acc := by
  induction rs generalizing acc with
  | nil => rfl
  | cons r rs ih =>
    rw [ruleLoop]
    have hg : ¬(L ≠ [] ∧ R ≠ []) := by
      rcases h with h | h <;> simp [h]
    have : (if isBinary r then (if L ≠ [] ∧ R ≠ [] then leftLoop r R L acc else acc)
        else acc) = acc := by
      rw [if_neg hg]; split <;> rfl
    rw [this]; exact ih acc

theorem kLoop_noop (g : PyGrammar) (tbl : Nat → Nat → List Entry) (i j : Nat)
    (ks : List Nat) (acc : List Entry)
    (h : ∀ k ∈ ks, tbl i k = [] ∨ tbl (i + k) (j - k) = []) :
    kLoop g tbl i j ks acc = acc := by
  induction ks generalizing acc with
  | nil => rfl
  | cons k ks ih =>
    rw [kLoop, ruleLoop_noop _ _ _ _ (h k (List.mem_cons_self k ks))]
    exact ih acc (fun x hx => h x (List.mem_cons_of_mem _ hx))

/-- If no unary rule matches the character at position `p`, every cell whose
span covers `p` is absent (empty). -/
theorem tableF_empty_at (g : PyGrammar) (w : List Char) (p : Nat) (c : Char)
    (hc : w.get? p = some c)
    (hnr : ∀ r ∈ rulesSorted g, matchT r c = false) :
    ∀ fuel i j, i ≤ p → p < i + j → tableF g w fuel i j = [] := by
  intro fuel
  induction fuel with
  | zero => intro i j _ _; rfl
  | succ fuel ih =>
    intro i j hip hpj
    rw [tableF]
    by_cases hj : j = 1
    · subst hj
      have hip2 : i = p := by omega
      subst hip2
      rw [if_pos rfl, baseCell, hc]
      exact baseLoop_nil c _ [] hnr
    · rw [if_neg hj]
      by_cases hrange : 2 ≤ j ∧ i + j ≤ w.length
      · rw [if_pos hrange, fillCell]
        apply kLoop_noop
        intro k hk
        rw [List.mem_range'_1] at hk
        by_cases hpk : p < i + k
        · exact Or.inl (ih i k hip hpk)
        · exact Or.inr (ih (i + k) (j - k) (by omega) (by omega))
      · rw [if_neg hrange]

theorem rulesSorted_nil (g : PyGrammar) (hg : g.rules = []) : rulesSorted g = [] := by
  rw [rulesSorted, hg]; rfl

theorem kLoop_rules_nil (g : PyGrammar) (tbl : Nat → Nat → List Entry) (i j : Nat)
    (ks : List Nat) (acc : List Entry) (hs : rulesSorted g = []) :
    kLoop g tbl i j ks acc = acc := by
  induction ks generalizing acc with
  | nil => rfl
  | cons k ks ih => rw [kLoop, hs]; exact ih acc

/-- An empty rule set gives an entirely empty table. -/
theorem tableF_empty_rules (g : PyGrammar) (w : List Char) (hg : g.rules = []) :
    ∀ fuel i j, tableF g w fuel i j = [] := by
  have hs := rulesSorted_nil g hg
  intro fuel
  induction fuel with
  | zero => intro i j; rfl
  | succ fuel _ =>
    intro i j
    rw [tableF]
    by_cases hj : j = 1
    · rw [if_pos hj, baseCell]
      cases w.get? i with
      | none => rfl
      | some c => rw [hs]; rfl
    · rw [if_neg hj]
      by_cases hrange : 2 ≤ j ∧ i + j ≤ w.length
      · rw [if_pos hrange, fillCell]; exact kLoop_rules_nil g _ i j _ [] hs
      · rw [if_neg hrange]

/-- C8.  `parse` always returns a pair whose derivation component is `None`
exactly on rejection and a list on acceptance; an empty grammar, a missing
start symbol, and a word character with no matching terminal rule each force
rejection — and the model, a total function, returns in every case. -/
theorem c8_parse_contract (P : CYKParser) (w : List Char) :
    ((cykParse P w).1 = false → (cykParse P w).2 = none)
    ∧ ((cykParse P w).1 = true → ∃ l, (cykParse P w).2 = some l)
    ∧ (P.grammar.rules = [] → (cykParse P w).1 = false)
    ∧ (P.start = none → (cykParse P w).1 = false)
    ∧ (∀ p c, w.get? p = some c →
        (∀ r ∈ rulesSorted P.grammar, matchT r c = false) →
        (cykParse P w).1 = false) := by
  obtain ⟨st, gr⟩ := P
  refine ⟨?_, ?_, ?_, ?_, ?_⟩
  · cases st with
    | none => intro _; rfl
    | some s =>
      simp only [cykParse]
      split
      · intro h; simp at h
      · intro _; rfl
  · cases st with
    | none => intro h; simp [cykParse] at h
    | some s =>
      simp only [cykParse]
      split
      · intro _; exact ⟨_, rfl⟩
      · intro h; simp at h
  · intro hg
    cases st with
    | none => rfl
    | some s =>
      simp only [cykParse]
      rw [cell, tableF_empty_rules gr w hg w.length 0 w.length]
      rfl
  · intro hs
    cases st with
    | none => rfl
    | some s => cases hs
  · intro p c hc hnr
    have hp : p < w.length := (List.get?_eq_some.mp hc).1
    cases st with
    | none => rfl
    | some s =>
      simp only [cykParse]
      rw [cell, tableF_empty_at gr w p c hc hnr w.length 0 w.length
        (Nat.zero_le p) (by omega)]
      rfl

/-- Witness for C8: a one-rule grammar `S -> a` queried on the word `z`,
whose character matches no terminal rule. -/
theorem c8_parse_contract_witness :
    (cykParse ⟨some (Sym.N "S"), gOne⟩ ['z']).1 = false :=
  (c8_parse_contract ⟨some (Sym.N "S"), gOne⟩ ['z']).2.2.2.2 0 'z' rfl (by decide)

/-! ### Derivation-trace tie-breaking (C10)

The trace iterates the table cells, which are Python sets of tuples over
string-keyed hashes: their iteration order is unspecified (and varies across
processes under hash randomization).  `traceF` takes the table as a function
so that statements can quantify over, or instantiate, that order. -/

/-- Order-independent existence of a justifying combination at a split: some
left entry, right entry and rule of the grammar match. -/
def justifiesB (rules : List PyRule) (cur : Sym) (L R : List Entry) : Bool :=
  L.any (fun l => R.any (fun rt => rules.any (fun r => pyEq r.lhs cur && matchB r l.1 rt.1)))

theorem findRight_none_iff (rules : List PyRule) (cur lsym : Sym) (R : List Entry) :
    findRight rules cur lsym R = none
      ↔ R.any (fun rt => rules.any (fun r => pyEq r.lhs cur && matchB r lsym rt.1)) = false := by
  induction R with
  | nil => simp [findRight]
  | cons rt rts ih =>
    rw [findRight]
    cases hf : rules.find? (fun r => pyEq r.lhs cur && matchB r lsym rt.1) with
    | some r =>
      have hmem := List.mem_of_find?_eq_some hf
      have hpr := List.find?_some hf
      simp only [List.any_cons]
      constructor
      · intro h; cases h
      · intro h
        have : rules.any (fun r => pyEq r.lhs cur && matchB r lsym rt.1) = true :=
          List.any_of_mem hmem hpr
        simp [this] at h
    | none =>
      have hall := List.find?_eq_none.mp hf
      have : rules.any (fun r => pyEq r.lhs cur && matchB r lsym rt.1) = false := by
        simp only [List.any_eq_false]
        intro r hr
        simp [hall r hr]
      simp only [List.any_cons, this, Bool.false_or]
      exact ih

theorem findLeft_none_iff (rules : List PyRule) (cur : Sym) (R L : List Entry) :
    findLeft rules cur R L = none ↔ justifiesB rules cur L R = false := by
  induction L with
  | nil => simp [findLeft, justifiesB]
  | cons l ls ih =>
    rw [findLeft]
    cases hf : findRight rules cur l.1 R with
    | some p =>
      have hne : ¬(R.any (fun rt => rules.any
          (fun r => pyEq r.lhs cur && matchB r l.1 rt.1)) = false) := by
        intro hfalse
        rw [← findRight_none_iff] at hfalse
        rw [hf] at hfalse
        cases hfalse
      simp only [justifiesB, List.any_cons]
      constructor
      · intro h; cases h
      · intro h
        rcases Bool.or_eq_false_iff.mp h with ⟨h1, _⟩
        exact absurd h1 hne
    | none =>
      have h1 := (findRight_none_iff rules cur l.1 R).mp hf
      simp only [justifiesB, List.any_cons, h1, Bool.false_or]
      exact ih

theorem pairwiseLtRange' (s n : Nat) : List.Pairwise (· < ·) (List.range' s n) := by
  induction n generalizing s with
  | zero => exact List.Pairwise.nil
  | succ n ih =>
    rw [List.range'_succ]
    refine List.Pairwise.cons ?_ (ih (s + 1))
    intro m hm
    have := (List.mem_range'_1.mp hm).1
    omega

/-- `findK` returns the first split in its (ascending) list whose sub-cells
are present and hold a justifying combination. -/
theorem findK_first (rules : List PyRule) (tbl : Nat → Nat → List Entry) (i j : Nat)
    (cur : Sym) (ks : List Nat) (hs : List.Pairwise (· < ·) ks)
    (k : Nat) (r : PyRule) (lsym rsym : Sym)
    (h : findK rules tbl i j cur ks = some (k, r, lsym, rsym)) :
    k ∈ ks
    ∧ (tbl i k ≠ [] ∧ tbl (i + k) (j - k) ≠ []
        ∧ justifiesB rules cur (tbl i k) (tbl (i + k) (j - k)) = true)
    ∧ ∀ k' ∈ ks, k' < k →
        ¬(tbl i k' ≠ [] ∧ tbl (i + k') (j - k') ≠ []
          ∧ justifiesB rules cur (tbl i k') (tbl (i + k') (j - k')) = true) := by
  induction ks with
  | nil => cases h
  | cons k0 ks ih =>
    rw [findK] at h
    rcases List.pairwise_cons.mp hs with ⟨hk0, htail⟩
    by_cases hg : tbl i k0 ≠ [] ∧ tbl (i + k0) (j - k0) ≠ []
    · rw [if_pos hg] at h
      cases hf : findLeft rules cur (tbl (i + k0) (j - k0)) (tbl i k0) with
      | some p =>
        rw [hf] at h
        injection h with h2
        have hk : k0 = k := congrArg Prod.fst h2
        subst hk
        have hjust : justifiesB rules cur (tbl i k0) (tbl (i + k0) (j - k0)) = true := by
          cases hjb : justifiesB rules cur (tbl i k0) (tbl (i + k0) (j - k0)) with
          | true => rfl
          | false =>
            rw [← findLeft_none_iff] at hjb
            rw [hf] at hjb
            cases hjb
        refine ⟨List.mem_cons_self k0 ks, ⟨hg.1, hg.2, hjust⟩, ?_⟩
        intro k' hk' hlt
        rcases List.mem_cons.mp hk' with hh | hh
        · omega
        · exact absurd hlt (by have := hk0 k' hh; omega)
      | none =>
        rw [hf] at h
        obtain ⟨hmem, hjust, hmin⟩ := ih htail h
        refine ⟨List.mem_cons_of_mem k0 hmem, hjust, ?_⟩
        intro k' hk' hlt
        rcases List.mem_cons.mp hk' with hh | hh
        · subst hh
          intro hc
          have := (findLeft_none_iff rules cur (tbl (i + k') (j - k')) (tbl i k')).mp hf
          rw [hc.2.2] at this
          cases this
        · exact hmin k' hh hlt
    · rw [if_neg hg] at h
      obtain ⟨hmem, hjust, hmin⟩ := ih htail h
      refine ⟨List.mem_cons_of_mem k0 hmem, hjust, ?_⟩
      intro k' hk' hlt
      rcases List.mem_cons.mp hk' with hh | hh
      · subst hh; intro hc; exact hg ⟨hc.1, hc.2.1⟩
      · exact hmin k' hh hlt

/-- C10 amended.  When `_trace_rules` resolves a cell with span `j > 1`, the
split it uses is the *smallest* `k` whose two sub-cells are present and hold
a justifying combination — this is order-independent; the rule it then cites
is the first match reached in the cells' unspecified set-iteration order, so
it need not be the smallest matching rule number (see the counterexample),
and the result is deterministic only relative to that order. -/
theorem c10_smallest_split (g : PyGrammar) (tbl : Nat → Nat → List Entry)
    (w : List Char) (fuel i j : Nat) (cur : Sym) (k : Nat) (r : PyRule)
    (lsym rsym : Sym) (hj : j ≠ 1)
    (h : findK (rulesSorted g) tbl i j cur (List.range' 1 (j - 1))
      = some (k, r, lsym, rsym)) :
    traceF g tbl w (fuel + 1) i j cur
      = r.num :: (traceF g tbl w fuel i k lsym
        ++ traceF g tbl w fuel (i + k) (j - k) rsym)
    ∧ (1 ≤ k ∧ k < j)
    ∧ (tbl i k ≠ [] ∧ tbl (i + k) (j - k) ≠ []
        ∧ justifiesB (rulesSorted g) cur (tbl i k) (tbl (i + k) (j - k)) = true)
    ∧ ∀ k', 1 ≤ k' → k' < k →
        ¬(tbl i k' ≠ [] ∧ tbl (i + k') (j - k') ≠ []
          ∧ justifiesB (rulesSorted g) cur (tbl i k') (tbl (i + k') (j - k')) = true) := by
  obtain ⟨hmem, hjust, hmin⟩ := findK_first (rulesSorted g) tbl i j cur _
    (pairwiseLtRange' 1 (j - 1)) k r lsym rsym h
  have hb := List.mem_range'_1.mp hmem
  have hkj : 1 ≤ k ∧ k < j := by omega
  refine ⟨?_, hkj, hjust, ?_⟩
  · rw [traceF, if_neg hj, h]; rfl
  · intro k' h1 h2
    exact hmin k' (List.mem_range'_1.mpr ⟨h1, by omega⟩) h2

def parserOr (e : Except PyErr CYKParser) : CYKParser :=
  match e with
  | .ok P => P
  | .error _ => ⟨none, emptyGrammar⟩

/-- A grammar whose cell `(0, 2)` is justified by two different rules:
`{S -> A C, S -> B C, A -> a, B -> a, C -> c}`. -/
def gTie : PyGrammar :=
  grammarOr (buildGrammar ["S -> AC", "S -> BC", "A -> a", "B -> a", "C -> c"])

def pTie : CYKParser := parserOr (cykInit gTie)

def wAC : List Char := ['a', 'c']

/-- The recognition table computed for `gTie` on the word `ac`. -/
def cellTie : Nat → Nat → List Entry := cell pTie.grammar wAC

/-- The same table with the base cell `(0, 1)` enumerated in the opposite
order — an equally legitimate iteration order of the same Python set. -/
def tblSwap : Nat → Nat → List Entry := fun i j =>
  if i = 0 ∧ j = 1 then [(Sym.N "B", some 2), (Sym.N "A", some 1)]
  else cellTie i j

/-- C10 counterexample.  On `gTie` (whose CNF rules are numbered
`A -> a = 1, B -> a = 2, C -> c = 3, S -> A C = 4, S -> B C = 5`) and the
word `ac`, the cell `(0, 1)` holds `{(A, 1), (B, 2)}`.  Under one
enumeration of that set the trace cites rule 4 at the top; under the
reversed enumeration of the *same* set it cites rule 5, even though
rule 4 — a strictly smaller rule number — still justifies the cell (via the
entries `(A, 1)` and `(C, 3)`, both present).  The chosen rule number is
therefore not the smallest matching one, and two runs that only differ in
set-iteration order return different derivations. -/
theorem c10_counterexample :
    cykInit gTie = .ok pTie
    ∧ (tblSwap 0 1).Perm (cellTie 0 1)
    ∧ traceF pTie.grammar cellTie wAC 2 0 2 (Sym.N "S") = [some 4, some 1, some 3]
    ∧ traceF pTie.grammar tblSwap wAC 2 0 2 (Sym.N "S") = [some 5, some 2, some 3]
    ∧ (rulesSorted pTie.grammar).any
        (fun r => r.num == some 4 && pyEq r.lhs (Sym.N "S")
          && matchB r (Sym.N "A") (Sym.N "C")) = true
    ∧ (Sym.N "A", some 1) ∈ tblSwap 0 1 ∧ (Sym.N "C", some 3) ∈ tblSwap 1 1 :=
  ⟨rfl, by decide, rfl, rfl, by decide, by decide, by decide⟩

/-- Witness for C10's amended theorem: on `gTie`/`ac` the trace of the cell
`(0, 2)` uses split `k = 1`, which carries a justifying combination. -/
theorem c10_smallest_split_witness :
    traceF pTie.grammar cellTie wAC 2 0 2 (Sym.N "S")
      = (some 4) :: (traceF pTie.grammar cellTie wAC 1 0 1 (Sym.N "A")
        ++ traceF pTie.grammar cellTie wAC 1 1 1 (Sym.N "C"))
    ∧ justifiesB (rulesSorted pTie.grammar) (Sym.N "S") (cellTie 0 1) (cellTie 1 1)
      = true := by
  have h := c10_smallest_split pTie.grammar cellTie wAC 1 0 2 (Sym.N "S") 1
    ⟨Sym.N "S", [Sym.N "A", Sym.N "C"], some 4⟩ (Sym.N "A") (Sym.N "C")
    (by decide) (by decide)
  exact ⟨h.1, h.2.2.1.2.2⟩

/-! ### Rule rendering and the textual round trip (C4) -/

/-- `' '.join(str(symbol) for symbol in rhs)`. -/
def joinSpaced : List Sym → List Char
  | [] => []
  | [x] => (symValue x).data
  | x :: xs => (symValue x).data ++ ' ' :: joinSpaced xs

/-- `GrammarRule.__str__` without the ordinal prefix (the
`LHS -> s1 s2 ... | ε` form the claim quotes; an empty RHS renders as `ε`). -/
def renderRuleChars (lhs : Sym) (rhs : List Sym) : List Char :=
  (symValue lhs).data ++ ' ' :: '-' :: '>' :: ' ' ::
    (if rhs = [] then "ε".data else joinSpaced rhs)

/-- The space-free concatenation of the RHS values, which is what the
decoder's tokenizer actually sees after `replace(" ", "")`. -/
def joinValsChars : List Sym → List Char
  | [] => []
  | x :: xs => (symValue x).data ++ joinValsChars xs

/-- A nonterminal name the tokenizer reproduces: an uppercase letter,
optionally one digit or apostrophe, optionally one further apostrophe. -/
def ntToken (v : List Char) : Bool :=
  match v with
  | [u] => u.isUpper
  | [u, c] => u.isUpper && (c.isDigit || c == apoC)
  | [u, c, a] => u.isUpper && (c.isDigit || c == apoC) && a == apoC
  | _ => false

/-- Per-symbol well-formedness: canonical nonterminal names; terminals are
single non-uppercase, non-whitespace characters. -/
def symOk : Sym → Bool
  | .T c => !c.isUpper && !c.isWhitespace
  | .N v => ntToken v.data

/-- Adjacency: an apostrophe terminal must not directly follow a
nonterminal (it would be merged into its name), and a digit terminal must
not directly follow a single-character nonterminal (it would be absorbed). -/
def adjOk (x y : Sym) : Bool :=
  match y with
  | .T c =>
    if c == apoC then !isNT x
    else if c.isDigit then !(isNT x && (symValue x).data.length == 1)
    else true
  | .N _ => true

def rhsOk : List Sym → Bool
  | [] => true
  | [x] => symOk x
  | x :: y :: rest => symOk x && adjOk x y && rhsOk (y :: rest)

/-- LHS names that survive the split/strip/validate path: uppercase head, at
most 3 characters, no whitespace and no `-` (which could create a second
`->` separator). -/
def lhsOk : Sym → Bool
  | .T _ => false
  | .N v =>
    match v.data with
    | [] => false
    | c :: _ =>
      c.isUpper && v.data.length ≤ 3
        && v.data.all (fun ch => !ch.isWhitespace && ch ≠ '-')

/-- The well-formedness under which the textual round trip holds; the one
non-structural exclusion is the single-terminal RHS `ε`, whose rendering is
the epsilon spelling itself. -/
def wfRule (lhs : Sym) (rhs : List Sym) : Bool :=
  lhsOk lhs && rhsOk rhs && !(rhs == [Sym.T 'ε'])

/-- C4 counterexample.  The rule `S -> B` with `B` a *terminal* renders to
the text `S -> B`, which `add_rule` decodes with a *nonterminal* `B` on the
right-hand side: the decoded rule is not structurally identical to the
original, contrary to the claim's parenthetical about uppercase-letter
terminals. -/
theorem c4_counterexample :
    parseRuleChars (renderRuleChars (Sym.N "S") [Sym.T 'B'])
      = .ok (Sym.N "S", [Sym.N "B"])
    ∧ ([Sym.N "B"] : List Sym) ≠ [Sym.T 'B'] :=
  ⟨rfl, by decide⟩

/-! Character-class facts used by the round-trip proof. -/

theorem upper_not_ws (c : Char) (h : c.isUpper = true) : c.isWhitespace = false := by
  by_contra hw
  rw [Bool.not_eq_false] at hw
  simp only [Char.isWhitespace, Bool.or_eq_true, decide_eq_true_eq] at hw
  rcases hw with ((hc | hc) | hc) | hc <;> (subst hc; exact absurd h (by decide))

theorem upper_ne_apo (c : Char) (h : c.isUpper = true) : (c == apoC) = false := by
  by_contra hw
  rw [Bool.not_eq_false, beq_iff_eq] at hw
  subst hw
  exact absurd h (by decide)

theorem upper_not_digit (c : Char) (h : c.isUpper = true) : c.isDigit = false := by
  by_contra hw
  rw [Bool.not_eq_false] at hw
  simp only [Char.isUpper, Bool.and_eq_true, decide_eq_true_eq] at h
  simp only [Char.isDigit, Bool.and_eq_true, decide_eq_true_eq] at hw
  have h1 : (65 : UInt32) ≤ c.val := h.1
  have h2 : c.val ≤ 57 := hw.2
  exact absurd (UInt32.le_trans h1 h2) (by decide)

theorem upper_ne_space (c : Char) (h : c.isUpper = true) : ¬(c = ' ') := by
  intro hc; subst hc; exact absurd h (by decide)

/-! `splitArrowGo` characterization. -/

theorem splitArrowGo_two (c d : Char) (rest cur : List Char) :
    splitArrowGo (c :: d :: rest) cur
      = if c = '-' ∧ d = '>' then cur.reverse :: splitArrowGo rest []
        else splitArrowGo (d :: rest) (c :: cur) := rfl

/-- Scanning a prefix containing no `-` just moves it to the accumulator. -/
theorem splitArrowGo_passes (l1 : List Char) (h : '-' ∉ l1) :
    ∀ r cur, r ≠ [] → splitArrowGo (l1 ++ r) cur = splitArrowGo r (l1.reverse ++ cur) := by
  induction l1 with
  | nil => intro r cur _; simp
  | cons c t ih =>
    intro r cur hr
    have hc : ¬(c = '-') := fun hcc => h (hcc ▸ List.mem_cons_self c t)
    have htr : t ++ r ≠ [] := by
      intro hemp
      rcases List.append_eq_nil.mp hemp with ⟨_, h2⟩
      exact hr h2
    rcases hsplit : t ++ r with _ | ⟨d, rest⟩
    · exact absurd hsplit htr
    · rw [List.cons_append, hsplit, splitArrowGo_two, if_neg (fun hp => hc hp.1), ← hsplit,
        ih (fun hm => h (List.mem_cons_of_mem c hm)) r (c :: cur) hr]
      simp

/-- No adjacent `-`, `>` pair. -/
def noArrowB : List Char → Bool
  | [] => true
  | [_] => true
  | c :: d :: rest => !(c == '-' && d == '>') && noArrowB (d :: rest)

theorem noArrowB_cons_elim (c d : Char) (t2 : List Char)
    (h : noArrowB (c :: d :: t2) = true) :
    ¬(c = '-' ∧ d = '>') ∧ noArrowB (d :: t2) = true := by
  have h2 : (!(c == '-' && d == '>') && noArrowB (d :: t2)) = true := h
  simp only [Bool.and_eq_true, Bool.not_eq_true', Bool.and_eq_false_iff] at h2
  refine ⟨?_, h2.2⟩
  intro hp
  rcases h2.1 with hq | hq <;> simp [hp.1, hp.2] at hq

/-- Scanning a separator-free suffix yields a single final part. -/
theorem splitArrowGo_noArrow (l : List Char) (h : noArrowB l = true) :
    ∀ cur, splitArrowGo l cur = [cur.reverse ++ l] := by
  induction l with
  | nil => intro cur; simp [splitArrowGo]
  | cons c t ih =>
    intro cur
    cases t with
    | nil => simp [splitArrowGo]
    | cons d t2 =>
      obtain ⟨hpair, ht⟩ := noArrowB_cons_elim c d t2 h
      rw [splitArrowGo_two, if_neg hpair, ih ht (c :: cur)]
      simp

theorem pair_false_of_not (c d : Char) (h : ¬(c = '-' ∧ d = '>')) :
    (c == '-' && d == '>') = false := by
  cases hq : (c == '-' && d == '>') with
  | false => rfl
  | true =>
    exfalso
    apply h
    simpa [Bool.and_eq_true, beq_iff_eq] using hq

theorem noArrowB_cons_intro (c : Char) (l : List Char) (hc : ¬(c = '-'))
    (hl : noArrowB l = true) : noArrowB (c :: l) = true := by
  cases l with
  | nil => rfl
  | cons d t =>
    show (!(c == '-' && d == '>') && noArrowB (d :: t)) = true
    rw [pair_false_of_not c d (fun hp => hc hp.1), hl]
    rfl

theorem no_dash_noArrowB (l : List Char) (h : '-' ∉ l) : noArrowB l = true := by
  induction l with
  | nil => rfl
  | cons c t ih =>
    have hc : ¬(c = '-') := fun hcc => h (hcc ▸ List.mem_cons_self c t)
    exact noArrowB_cons_intro c t hc (ih (fun hm => h (List.mem_cons_of_mem c hm)))

theorem noArrowB_append_cons (a : List Char) (d : Char) (b : List Char)
    (ha : noArrowB a = true) (hb : noArrowB (d :: b) = true) (hd : ¬(d = '>')) :
    noArrowB (a ++ d :: b) = true := by
  induction a with
  | nil => simpa
  | cons c t ih =>
    cases t with
    | nil =>
      show (!(c == '-' && d == '>') && noArrowB (d :: b)) = true
      rw [pair_false_of_not c d (fun hp => hd hp.2), hb]
      rfl
    | cons e t2 =>
      obtain ⟨hp, ht⟩ := noArrowB_cons_elim c e t2 ha
      show (!(c == '-' && e == '>') && noArrowB (e :: (t2 ++ d :: b))) = true
      have := ih ht
      rw [pair_false_of_not c e hp]
      simpa using this

/-! `pyStrip` characterization. -/

theorem pyStrip_cons_space (l : List Char) : pyStrip (' ' :: l) = pyStrip l := by
  rw [pyStrip, pyStrip, List.dropWhile_cons, if_pos (by decide)]

theorem pyStrip_no_ws_ends (l : List Char)
    (h1 : ∀ c, l.head? = some c → c.isWhitespace = false)
    (h2 : ∀ c, l.getLast? = some c → c.isWhitespace = false) :
    pyStrip l = l := by
  rw [pyStrip]
  have hd : l.dropWhile Char.isWhitespace = l := by
    cases l with
    | nil => rfl
    | cons a t =>
      have := h1 a rfl
      rw [List.dropWhile_cons, if_neg (by simp [this])]
  rw [hd]
  have hr : l.reverse.dropWhile Char.isWhitespace = l.reverse := by
    cases hrev : l.reverse with
    | nil => rfl
    | cons a t =>
      have hlast : l.getLast? = some a := by
        rw [← List.head?_reverse, hrev]
        rfl
      have := h2 a hlast
      rw [List.dropWhile_cons, if_neg (by simp [this])]
  rw [hr, List.reverse_reverse]

theorem pyStrip_append_space (l : List Char) (hne : l ≠ [])
    (hall : ∀ c ∈ l, c.isWhitespace = false) : pyStrip (l ++ [' ']) = l := by
  rw [pyStrip]
  have hd : (l ++ [' ']).dropWhile Char.isWhitespace = l ++ [' '] := by
    cases l with
    | nil => exact absurd rfl hne
    | cons a t =>
      have := hall a (List.mem_cons_self a t)
      rw [List.cons_append, List.dropWhile_cons, if_neg (by simp [this])]
  rw [hd, List.reverse_append]
  simp only [List.reverse_cons, List.reverse_nil, List.nil_append, List.singleton_append]
  rw [List.dropWhile_cons, if_pos (by decide)]
  have hr : l.reverse.dropWhile Char.isWhitespace = l.reverse := by
    cases hrev : l.reverse with
    | nil => rfl
    | cons a t =>
      have ha : a ∈ l := by
        have : a ∈ l.reverse := by rw [hrev]; exact List.mem_cons_self a t
        exact List.mem_reverse.mp this
      rw [List.dropWhile_cons, if_neg (by simp [hall a ha])]
  rw [hr, List.reverse_reverse]

/-! Symbol-value facts. -/

theorem symValue_T_data (c : Char) : (symValue (Sym.T c)).data = [c] := rfl

theorem digit_not_ws (c : Char) (h : c.isDigit = true) : c.isWhitespace = false := by
  by_contra hw
  rw [Bool.not_eq_false] at hw
  simp only [Char.isWhitespace, Bool.or_eq_true, decide_eq_true_eq] at hw
  rcases hw with ((hc | hc) | hc) | hc <;> (subst hc; exact absurd h (by decide))

theorem digit_or_apo_not_ws (c : Char) (h : (c.isDigit || c == apoC) = true) :
    c.isWhitespace = false := by
  rcases Bool.or_eq_true _ _ ▸ h with hd | ha
  · exact digit_not_ws c hd
  · rw [beq_iff_eq] at ha; subst ha; decide

theorem digit_or_apo_ne_dash (c : Char) (h : (c.isDigit || c == apoC) = true) :
    ¬(c = '-') := by
  intro hc
  subst hc
  simp only [Bool.or_eq_true, beq_iff_eq] at h
  rcases h with h | h
  · exact absurd h (by decide)
  · exact absurd h (by decide)

theorem upper_ne_dash (c : Char) (h : c.isUpper = true) : ¬(c = '-') := by
  intro hc; subst hc; exact absurd h (by decide)

theorem ntToken_shape (v : List Char) (h : ntToken v = true) :
    (∃ u, v = [u] ∧ u.isUpper = true)
    ∨ (∃ u c, v = [u, c] ∧ u.isUpper = true ∧ (c.isDigit || c == apoC) = true)
    ∨ (∃ u c, v = [u, c, apoC] ∧ u.isUpper = true
        ∧ (c.isDigit || c == apoC) = true) := by
  match v with
  | [] => cases h
  | [u] => exact Or.inl ⟨u, rfl, h⟩
  | [u, c] =>
    have h2 : (u.isUpper && (c.isDigit || c == apoC)) = true := h
    simp only [Bool.and_eq_true] at h2
    exact Or.inr (Or.inl ⟨u, c, rfl, h2.1, h2.2⟩)
  | [u, c, a] =>
    have h2 : (u.isUpper && (c.isDigit || c == apoC) && (a == apoC)) = true := h
    simp only [Bool.and_eq_true, beq_iff_eq] at h2
    exact Or.inr (Or.inr ⟨u, c, by rw [← h2.2], h2.1.1, h2.1.2⟩)
  | _ :: _ :: _ :: _ :: _ => cases h

theorem ntToken_ne_nil (v : List Char) (h : ntToken v = true) : v ≠ [] := by
  rcases ntToken_shape v h with ⟨u, hv, _⟩ | ⟨u, c, hv, _⟩ | ⟨u, c, hv, _⟩ <;>
    (subst hv; simp)

theorem ntToken_all_not_ws (v : List Char) (h : ntToken v = true) :
    ∀ c ∈ v, c.isWhitespace = false := by
  rcases ntToken_shape v h with ⟨u, hv, hu⟩ | ⟨u, c, hv, hu, hc⟩ | ⟨u, c, hv, hu, hc⟩
  · subst hv
    intro x hx
    simp only [List.mem_cons, List.not_mem_nil, or_false] at hx
    subst hx
    exact upper_not_ws _ hu
  · subst hv
    intro x hx
    simp only [List.mem_cons, List.not_mem_nil, or_false] at hx
    rcases hx with hx | hx <;> subst hx
    · exact upper_not_ws _ hu
    · exact digit_or_apo_not_ws _ hc
  · subst hv
    intro x hx
    simp only [List.mem_cons, List.not_mem_nil, or_false] at hx
    rcases hx with hx | hx | hx <;> subst hx
    · exact upper_not_ws _ hu
    · exact digit_or_apo_not_ws _ hc
    · decide

theorem ntToken_no_dash (v : List Char) (h : ntToken v = true) : '-' ∉ v := by
  intro hmem
  rcases ntToken_shape v h with ⟨u, hv, hu⟩ | ⟨u, c, hv, hu, hc⟩ | ⟨u, c, hv, hu, hc⟩ <;>
    subst hv <;> simp only [List.mem_cons, List.not_mem_nil, or_false] at hmem
  · exact upper_ne_dash u hu hmem.symm
  · rcases hmem with hx | hx
    · exact upper_ne_dash u hu hx.symm
    · exact digit_or_apo_ne_dash c hc hx.symm
  · rcases hmem with hx | hx | hx
    · exact upper_ne_dash u hu hx.symm
    · exact digit_or_apo_ne_dash c hc hx.symm
    · exact absurd hx.symm (by decide)

theorem symOk_val_ne_nil (x : Sym) (h : symOk x = true) : (symValue x).data ≠ [] := by
  cases x with
  | T c => rw [symValue_T_data]; simp
  | N v => exact ntToken_ne_nil v.data h

theorem symOk_all_not_ws (x : Sym) (h : symOk x = true) :
    ∀ c ∈ (symValue x).data, c.isWhitespace = false := by
  cases x with
  | T c0 =>
    intro d hd
    rw [symValue_T_data] at hd
    simp only [List.mem_cons, List.not_mem_nil, or_false] at hd
    have h2 : (!c0.isUpper && !c0.isWhitespace) = true := h
    simp only [Bool.and_eq_true, Bool.not_eq_true'] at h2
    rw [hd]
    exact h2.2
  | N v => exact ntToken_all_not_ws v.data h

theorem symOk_no_space (x : Sym) (h : symOk x = true) :
    ∀ c ∈ (symValue x).data, ¬(c = ' ') := by
  intro c hc hsp
  subst hsp
  have := symOk_all_not_ws x h ' ' hc
  exact absurd this (by decide)

theorem symOk_head_not_ws (x : Sym) (h : symOk x = true) :
    ∀ c, (symValue x).data.head? = some c → c.isWhitespace = false := by
  intro c hc
  exact symOk_all_not_ws x h c (List.mem_of_mem_head? (hc ▸ rfl))

theorem symOk_last_not_ws (x : Sym) (h : symOk x = true) :
    ∀ c, (symValue x).data.getLast? = some c → c.isWhitespace = false := by
  intro c hc
  exact symOk_all_not_ws x h c (List.mem_of_getLast?_eq_some hc)

/-! `rhsOk` / `joinSpaced` / `joinValsChars` structure. -/

theorem rhsOk_cons_elim (x y : Sym) (rest : List Sym) (h : rhsOk (x :: y :: rest) = true) :
    symOk x = true ∧ adjOk x y = true ∧ rhsOk (y :: rest) = true := by
  have h2 : (symOk x && adjOk x y && rhsOk (y :: rest)) = true := h
  simp only [Bool.and_eq_true] at h2
  exact ⟨h2.1.1, h2.1.2, h2.2⟩

theorem rhsOk_head (x : Sym) (rest : List Sym) (h : rhsOk (x :: rest) = true) :
    symOk x = true := by
  cases rest with
  | nil => exact h
  | cons y ys => exact (rhsOk_cons_elim x y ys h).1

theorem rhsOk_tail (x : Sym) (rest : List Sym) (h : rhsOk (x :: rest) = true) :
    rhsOk rest = true := by
  cases rest with
  | nil => rfl
  | cons y ys => exact (rhsOk_cons_elim x y ys h).2.2

theorem joinValsChars_cons (x : Sym) (xs : List Sym) :
    joinValsChars (x :: xs) = (symValue x).data ++ joinValsChars xs := rfl

theorem joinValsChars_ne_nil (x : Sym) (xs : List Sym) (hx : symOk x = true) :
    joinValsChars (x :: xs) ≠ [] := by
  rw [joinValsChars_cons]
  rcases hv : (symValue x).data with _ | ⟨a, t⟩
  · exact absurd hv (symOk_val_ne_nil x hx)
  · simp

theorem joinValsChars_head (y : Sym) (ys : List Sym) (hy : symOk y = true)
    (d : Char) (rest2 : List Char) (hj : joinValsChars (y :: ys) = d :: rest2) :
    (symValue y).data.head? = some d := by
  rcases hv : (symValue y).data with _ | ⟨a, t⟩
  · exact absurd hv (symOk_val_ne_nil y hy)
  · rw [joinValsChars_cons, hv, List.cons_append] at hj
    injection hj with h1 _
    rw [List.head?_cons, h1]

theorem joinSpaced_one (x : Sym) : joinSpaced [x] = (symValue x).data := rfl

theorem joinSpaced_two_cons (x y : Sym) (ys : List Sym) :
    joinSpaced (x :: y :: ys) = (symValue x).data ++ ' ' :: joinSpaced (y :: ys) := rfl

theorem joinSpaced_ne_nil (x : Sym) (xs : List Sym) (hx : symOk x = true) :
    joinSpaced (x :: xs) ≠ [] := by
  cases xs with
  | nil => rw [joinSpaced_one]; exact symOk_val_ne_nil x hx
  | cons y ys =>
    rw [joinSpaced_two_cons]
    rcases hv : (symValue x).data with _ | ⟨a, t⟩
    · exact absurd hv (symOk_val_ne_nil x hx)
    · simp

theorem space_mem_joinSpaced (x y : Sym) (ys : List Sym) :
    ' ' ∈ joinSpaced (x :: y :: ys) := by
  rw [joinSpaced_two_cons]
  exact List.mem_append_right _ (List.mem_cons_self _ _)

theorem joinSpaced_head_not_ws (rhs : List Sym) (h : rhsOk rhs = true) :
    ∀ c, (joinSpaced rhs).head? = some c → c.isWhitespace = false := by
  cases rhs with
  | nil => intro c hc; cases hc
  | cons x xs =>
    have hx : symOk x = true := rhsOk_head x xs h
    cases xs with
    | nil =>
      intro c hc
      rw [joinSpaced_one] at hc
      exact symOk_head_not_ws x hx c hc
    | cons y ys =>
      intro c hc
      rw [joinSpaced_two_cons] at hc
      rcases hv : (symValue x).data with _ | ⟨a, t⟩
      · exact absurd hv (symOk_val_ne_nil x hx)
      · rw [hv, List.cons_append, List.head?_cons] at hc
        injection hc with hac
        rw [← hac]
        exact symOk_head_not_ws x hx a (by rw [hv]; rfl)

theorem joinSpaced_last_not_ws (rhs : List Sym) (h : rhsOk rhs = true) :
    ∀ c, (joinSpaced rhs).getLast? = some c → c.isWhitespace = false := by
  induction rhs with
  | nil => intro c hc; cases hc
  | cons x xs ih =>
    cases xs with
    | nil =>
      intro c hc
      rw [joinSpaced_one] at hc
      exact symOk_last_not_ws x (rhsOk_head x [] h) c hc
    | cons y ys =>
      obtain ⟨hx, hadj, ht⟩ := rhsOk_cons_elim x y ys h
      intro c hc
      rw [joinSpaced_two_cons] at hc
      have hyok : symOk y = true := rhsOk_head y ys ht
      rcases hjy : joinSpaced (y :: ys) with _ | ⟨a, t⟩
      · exact absurd hjy (joinSpaced_ne_nil y ys hyok)
      · rw [hjy, List.getLast?_append_cons] at hc
        exact ih ht c (by rw [hjy]; exact hc)

theorem joinSpaced_noArrowB (rhs : List Sym) (h : rhsOk rhs = true) :
    noArrowB (joinSpaced rhs) = true := by
  induction rhs with
  | nil => rfl
  | cons x xs ih =>
    have hx : symOk x = true := rhsOk_head x xs h
    have hval : noArrowB (symValue x).data = true := by
      cases x with
      | T c => rw [symValue_T_data]; rfl
      | N v => exact no_dash_noArrowB v.data (ntToken_no_dash v.data hx)
    cases xs with
    | nil => rw [joinSpaced_one]; exact hval
    | cons y ys =>
      obtain ⟨_, _, ht⟩ := rhsOk_cons_elim x y ys h
      rw [joinSpaced_two_cons]
      exact noArrowB_append_cons _ ' ' _ hval
        (noArrowB_cons_intro ' ' _ (by decide) (ih ht)) (by decide)

theorem joinSpaced_filter (rhs : List Sym) (h : rhsOk rhs = true) :
    (joinSpaced rhs).filter (fun c => c ≠ ' ') = joinValsChars rhs := by
  induction rhs with
  | nil => rfl
  | cons x xs ih =>
    have hx : symOk x = true := rhsOk_head x xs h
    have hkeep : (symValue x).data.filter (fun c => c ≠ ' ') = (symValue x).data := by
      rw [List.filter_eq_self]
      intro a ha
      simp only [ne_eq, decide_not, Bool.not_eq_true', decide_eq_false_iff_not]
      exact symOk_no_space x hx a ha
    cases xs with
    | nil =>
      rw [joinSpaced_one, joinValsChars_cons, hkeep]
      simp [joinValsChars]
    | cons y ys =>
      obtain ⟨_, _, ht⟩ := rhsOk_cons_elim x y ys h
      rw [joinSpaced_two_cons, List.filter_append, hkeep, joinValsChars_cons]
      congr 1
      rw [List.filter_cons, if_neg (by decide)]
      exact ih ht

theorem joinValsChars_eq_nil (rest : List Sym) (h : rhsOk rest = true)
    (hj : joinValsChars rest = []) : rest = [] := by
  cases rest with
  | nil => rfl
  | cons y ys => exact absurd hj (joinValsChars_ne_nil y ys (rhsOk_head y ys h))

/-! Tokenizer step equations and guards. -/

theorem mkNonterminal_ok (u : Char) (t : List Char) (hu : u.isUpper = true)
    (hlen : (u :: t).length ≤ 3) :
    mkNonterminal ⟨u :: t⟩ = .ok (Sym.N ⟨u :: t⟩) := by
  have h0 : mkNonterminal ⟨u :: t⟩ = (if !u.isUpper then .error .ntNotUppercase
      else if (u :: t).length > 3 then .error .ntTooLong
      else .ok (Sym.N ⟨u :: t⟩)) := rfl
  rw [h0, if_neg (by simp [hu]), if_neg (by omega)]

/-- The condition under which the apostrophe branch appends a terminal: no
merge happens when `rhs` does not start with an apostrophe terminal sitting
right after a nonterminal at the end of the accumulator. -/
def headApoGuard (acc rhs : List Sym) : Prop :=
  ∀ c, rhs.head? = some (Sym.T c) → c = apoC →
    ∀ s, acc.getLast? = some s → isNT s = false

theorem guard_after_T (acc : List Sym) (c : Char) (rhs : List Sym) :
    headApoGuard (acc ++ [Sym.T c]) rhs := by
  intro c2 _ _ s hs
  rw [List.getLast?_concat] at hs
  injection hs with h2
  rw [← h2]
  rfl

theorem guard_after_N_adj (acc : List Sym) (x y : Sym) (ys : List Sym)
    (hadj : adjOk x y = true) (hxN : isNT x = true) :
    headApoGuard (acc ++ [x]) (y :: ys) := by
  intro c hc hapo s _
  rw [List.head?_cons] at hc
  injection hc with hy
  subst hy
  subst hapo
  have hred : adjOk x (Sym.T apoC) = !isNT x := by
    show (if (apoC == apoC) = true then !isNT x
      else if apoC.isDigit = true then !(isNT x && (symValue x).data.length == 1)
      else true) = !isNT x
    simp
  rw [hred, hxN] at hadj
  cases hadj

/-- After a nonterminal whose token the tokenizer just closed, the next
value's first character is neither a digit (when the nonterminal is a single
letter, which would absorb it) nor an apostrophe (which would merge). -/
theorem next_head_char_free (x y : Sym) (hy : symOk y = true) (hadj : adjOk x y = true)
    (hxN : isNT x = true) (hx1 : (symValue x).data.length = 1)
    (d : Char) (hd : (symValue y).data.head? = some d) :
    (d.isDigit || d == apoC) = false := by
  cases y with
  | T c =>
    rw [symValue_T_data, List.head?_cons] at hd
    injection hd with hcd
    rw [← hcd]
    by_cases hapo : (c == apoC) = true
    · exfalso
      have hred : adjOk x (Sym.T c) = !isNT x := by
        show (if (c == apoC) = true then !isNT x
          else if c.isDigit = true then !(isNT x && (symValue x).data.length == 1)
          else true) = !isNT x
        rw [if_pos hapo]
      rw [hred, hxN] at hadj
      cases hadj
    · by_cases hdig : c.isDigit = true
      · exfalso
        have hred : adjOk x (Sym.T c)
            = !(isNT x && (symValue x).data.length == 1) := by
          show (if (c == apoC) = true then !isNT x
            else if c.isDigit = true then !(isNT x && (symValue x).data.length == 1)
            else true) = !(isNT x && (symValue x).data.length == 1)
          rw [if_neg hapo, if_pos hdig]
        rw [hred, hxN, hx1] at hadj
        simp at hadj
      · simp only [Bool.or_eq_false_iff]
        exact ⟨by simpa using hdig, by simpa using hapo⟩
  | N w =>
    have hu : d.isUpper = true := by
      rcases ntToken_shape w.data hy with ⟨u, hv, hu⟩ | ⟨u, c, hv, hu, _⟩ | ⟨u, c, hv, hu, _⟩ <;>
      · rw [show (symValue (Sym.N w)).data = w.data from rfl, hv, List.head?_cons] at hd
        injection hd with hud
        rw [← hud]
        exact hu
    rw [upper_not_digit d hu, upper_ne_apo d hu]
    rfl

theorem tokF_plain_T (fuel : Nat) (c : Char) (rest : List Char) (acc : List Sym)
    (hcu : c.isUpper = false) (hca : (c == apoC) = false) :
    tokenizeRHSF (fuel + 1) (c :: rest) acc = tokenizeRHSF fuel rest (acc ++ [.T c]) := by
  simp [tokenizeRHSF, hcu, hca]

theorem tokF_apo_T (fuel : Nat) (c : Char) (rest : List Char) (acc : List Sym)
    (hcu : c.isUpper = false) (hca : (c == apoC) = true)
    (hlast : ∀ s, acc.getLast? = some s → isNT s = false) :
    tokenizeRHSF (fuel + 1) (c :: rest) acc = tokenizeRHSF fuel rest (acc ++ [.T c]) := by
  cases hl : acc.getLast? with
  | none => simp [tokenizeRHSF, hcu, hca, hl]
  | some s => simp [tokenizeRHSF, hcu, hca, hl, hlast s hl]

theorem tokF_upper_end (fuel : Nat) (u : Char) (acc : List Sym)
    (hu : u.isUpper = true) :
    tokenizeRHSF (fuel + 1) [u] acc = .ok (acc ++ [.N ⟨[u]⟩]) := by
  simp [tokenizeRHSF, hu, mkNonterminal_ok u [] hu (by simp)]

theorem tokF_upper_one (fuel : Nat) (u d : Char) (rest2 : List Char) (acc : List Sym)
    (hu : u.isUpper = true) (hd : (d.isDigit || d == apoC) = false) :
    tokenizeRHSF (fuel + 1) (u :: d :: rest2) acc
      = tokenizeRHSF fuel (d :: rest2) (acc ++ [.N ⟨[u]⟩]) := by
  simp [tokenizeRHSF, hu, hd, mkNonterminal_ok u [] hu (by simp)]

theorem tokF_upper_two (fuel : Nat) (u d : Char) (rest2 : List Char) (acc : List Sym)
    (hu : u.isUpper = true) (hd : (d.isDigit || d == apoC) = true) :
    tokenizeRHSF (fuel + 1) (u :: d :: rest2) acc
      = tokenizeRHSF fuel rest2 (acc ++ [.N ⟨[u, d]⟩]) := by
  simp [tokenizeRHSF, hu, hd, mkNonterminal_ok u [d] hu (by simp)]

theorem tokF_merge (fuel : Nat) (rest : List Char) (acc : List Sym) (s nt : Sym)
    (hlast : acc.getLast? = some s) (hNT : isNT s = true)
    (hok : mkNonterminal ⟨(symValue s).data ++ [apoC]⟩ = .ok nt) :
    tokenizeRHSF (fuel + 1) (apoC :: rest) acc
      = tokenizeRHSF fuel rest (acc.dropLast ++ [nt]) := by
  simp [tokenizeRHSF, (by decide : apoC.isUpper = false), hlast, hNT, hok]

theorem guard_nil (acc : List Sym) : headApoGuard acc [] := by
  intro c hc
  cases hc

/-- Guard propagation after emitting a nonterminal symbol. -/
theorem guard_after_N (acc : List Sym) (x : Sym) (rest : List Sym)
    (hxN : isNT x = true)
    (hadj : ∀ y ys, rest = y :: ys → adjOk x y = true) :
    headApoGuard (acc ++ [x]) rest := by
  cases rest with
  | nil => exact guard_nil _
  | cons y ys => exact guard_after_N_adj acc x y ys (hadj y ys rfl) hxN

/-- The tokenizer rebuilds exactly the symbol sequence from its space-free
concatenation, onto any compatible accumulator. -/
theorem tokF_roundtrip (rhs : List Sym) : ∀ (acc : List Sym) (fuel : Nat),
    rhsOk rhs = true →
    (joinValsChars rhs).length < fuel →
    headApoGuard acc rhs →
    tokenizeRHSF fuel (joinValsChars rhs) acc = .ok (acc ++ rhs) := by
  induction rhs with
  | nil =>
    intro acc fuel _ _ _
    cases fuel with
    | zero => simp [tokenizeRHSF, joinValsChars]
    | succ f => simp [tokenizeRHSF, joinValsChars]
  | cons x rest ih =>
    intro acc fuel h hfuel hguard
    have hx : symOk x = true := rhsOk_head x rest h
    have ht : rhsOk rest = true := rhsOk_tail x rest h
    rw [joinValsChars_cons] at hfuel ⊢
    have hadjall : ∀ y ys, rest = y :: ys → adjOk x y = true := by
      intro y ys hr
      subst hr
      exact (rhsOk_cons_elim x y ys h).2.1
    cases x with
    | T c =>
      rw [symValue_T_data] at hfuel ⊢
      rw [List.length_append, List.length_cons, List.length_nil] at hfuel
      cases fuel with
      | zero => omega
      | succ f =>
        have hcu : c.isUpper = false := by
          have h2 : (!c.isUpper && !c.isWhitespace) = true := hx
          simp only [Bool.and_eq_true, Bool.not_eq_true'] at h2
          exact h2.1
        have hrest : tokenizeRHSF f (joinValsChars rest) (acc ++ [Sym.T c])
            = .ok ((acc ++ [Sym.T c]) ++ rest) :=
          ih (acc ++ [Sym.T c]) f ht (by omega) (guard_after_T acc c rest)
        by_cases hca : (c == apoC) = true
        · rw [List.singleton_append, tokF_apo_T f c _ acc hcu hca
            (hguard c rfl (by rwa [beq_iff_eq] at hca)), hrest]
          simp
        · rw [List.singleton_append,
            tokF_plain_T f c _ acc hcu (by simpa using hca), hrest]
          simp
    | N v =>
      obtain ⟨vd⟩ := v
      rcases ntToken_shape vd hx with ⟨u, hv, hu⟩ | ⟨u, c2, hv, hu, hc2⟩
        | ⟨u, c2, hv, hu, hc2⟩
      · subst hv
        rw [show (symValue (Sym.N ⟨[u]⟩)).data = [u] from rfl] at hfuel ⊢
        rw [List.length_append, List.length_cons, List.length_nil] at hfuel
        cases fuel with
        | zero => omega
        | succ f =>
          cases hjr : joinValsChars rest with
          | nil =>
            have hrest : rest = [] := joinValsChars_eq_nil rest ht hjr
            subst hrest
            rw [show ([u] ++ ([] : List Char)) = [u] from (by simp)]
            rw [tokF_upper_end f u acc hu]
          | cons d rest2 =>
            cases rest with
            | nil => simp [joinValsChars] at hjr
            | cons y ys =>
              have hyok : symOk y = true := rhsOk_head y ys ht
              have hdh : (symValue y).data.head? = some d :=
                joinValsChars_head y ys hyok d rest2 hjr
              have hadj : adjOk (Sym.N ⟨[u]⟩) y = true := hadjall y ys rfl
              have hfree : (d.isDigit || d == apoC) = false :=
                next_head_char_free (Sym.N ⟨[u]⟩) y hyok hadj rfl rfl d hdh
              have hrest : tokenizeRHSF f (joinValsChars (y :: ys))
                  (acc ++ [Sym.N ⟨[u]⟩]) = .ok ((acc ++ [Sym.N ⟨[u]⟩]) ++ y :: ys) :=
                ih (acc ++ [Sym.N ⟨[u]⟩]) f ht (by omega)
                  (guard_after_N acc _ _ rfl hadjall)
              rw [hjr] at hrest
              rw [List.singleton_append, tokF_upper_one f u d rest2 acc hu hfree, hrest]
              simp
      · subst hv
        rw [show (symValue (Sym.N ⟨[u, c2]⟩)).data = [u, c2] from rfl] at hfuel ⊢
        rw [List.length_append] at hfuel
        cases fuel with
        | zero => omega
        | succ f =>
          have hrest : tokenizeRHSF f (joinValsChars rest) (acc ++ [Sym.N ⟨[u, c2]⟩])
              = .ok ((acc ++ [Sym.N ⟨[u, c2]⟩]) ++ rest) :=
            ih (acc ++ [Sym.N ⟨[u, c2]⟩]) f ht (by simp at hfuel ⊢; omega)
              (guard_after_N acc _ _ rfl hadjall)
          rw [show ([u, c2] ++ joinValsChars rest) = u :: c2 :: joinValsChars rest from rfl,
            tokF_upper_two f u c2 (joinValsChars rest) acc hu hc2, hrest]
          simp
      · subst hv
        rw [show (symValue (Sym.N ⟨[u, c2, apoC]⟩)).data = [u, c2, apoC] from rfl] at hfuel ⊢
        rw [List.length_append] at hfuel
        cases fuel with
        | zero => omega
        | succ f =>
          cases f with
          | zero => simp at hfuel
          | succ f2 =>
            have hrest : tokenizeRHSF f2 (joinValsChars rest)
                (acc ++ [Sym.N ⟨[u, c2, apoC]⟩])
                = .ok ((acc ++ [Sym.N ⟨[u, c2, apoC]⟩]) ++ rest) :=
              ih (acc ++ [Sym.N ⟨[u, c2, apoC]⟩]) f2 ht (by simp at hfuel ⊢; omega)
                (guard_after_N acc _ _ rfl hadjall)
            rw [show ([u, c2, apoC] ++ joinValsChars rest)
                = u :: c2 :: apoC :: joinValsChars rest from rfl,
              tokF_upper_two (f2 + 1) u c2 (apoC :: joinValsChars rest) acc hu hc2,
              tokF_merge f2 (joinValsChars rest) (acc ++ [Sym.N ⟨[u, c2]⟩])
                (Sym.N ⟨[u, c2]⟩) (Sym.N ⟨[u, c2, apoC]⟩) (List.getLast?_concat _) rfl
                (mkNonterminal_ok u [c2, apoC] hu (by simp)),
              List.dropLast_concat, hrest]
            simp

theorem guard_empty (rhs : List Sym) : headApoGuard [] rhs := by
  intro c _ _ s hs
  cases hs

theorem joinSpaced_ne_eps (rhs : List Sym) (h : rhsOk rhs = true) :
    joinSpaced rhs ≠ ['e', 'p', 's'] := by
  cases rhs with
  | nil => simp [joinSpaced]
  | cons x xs =>
    cases xs with
    | nil =>
      rw [joinSpaced_one]
      cases x with
      | T c => rw [symValue_T_data]; simp
      | N v =>
        intro heq
        have hnt : ntToken v.data = true := rhsOk_head (Sym.N v) [] h
        rw [show (symValue (Sym.N v)).data = v.data from rfl] at heq
        rw [heq] at hnt
        exact absurd hnt (by decide)
    | cons y ys =>
      intro heq
      have hsp := space_mem_joinSpaced x y ys
      rw [heq] at hsp
      exact absurd hsp (by decide)

theorem joinSpaced_ne_epsilon (rhs : List Sym) (h : rhsOk rhs = true)
    (hε : (rhs == [Sym.T 'ε']) = false) : joinSpaced rhs ≠ ['ε'] := by
  cases rhs with
  | nil => simp [joinSpaced]
  | cons x xs =>
    cases xs with
    | nil =>
      rw [joinSpaced_one]
      cases x with
      | T c =>
        rw [symValue_T_data]
        intro heq
        injection heq with hc _
        subst hc
        simp at hε
      | N v =>
        intro heq
        have hnt : ntToken v.data = true := rhsOk_head (Sym.N v) [] h
        rw [show (symValue (Sym.N v)).data = v.data from rfl] at heq
        rw [heq] at hnt
        exact absurd hnt (by decide)
    | cons y ys =>
      intro heq
      have hsp := space_mem_joinSpaced x y ys
      rw [heq] at hsp
      exact absurd hsp (by decide)

theorem joinSpaced_not_all_ws (x : Sym) (xs : List Sym)
    (h : rhsOk (x :: xs) = true) :
    (joinSpaced (x :: xs)).all Char.isWhitespace = false := by
  rcases hj : joinSpaced (x :: xs) with _ | ⟨a, t⟩
  · exact absurd hj (joinSpaced_ne_nil x xs (rhsOk_head x xs h))
  · have ha : a.isWhitespace = false :=
      joinSpaced_head_not_ws (x :: xs) h a (by rw [hj]; rfl)
    rw [List.all_cons, ha]
    rfl

/-- C4 amended.  Under `wfRule` — canonical nonterminal tokens, single
non-uppercase non-whitespace terminal characters, no apostrophe terminal
directly after a nonterminal, no digit terminal directly after a
single-letter nonterminal, a dash-free well-formed LHS name, and an RHS
other than the single terminal `ε` — decoding the rendered
`LHS -> s1 s2 ... | ε` text reproduces the rule exactly. -/
theorem c4_roundtrip (lhs : Sym) (rhs : List Sym) (h : wfRule lhs rhs = true) :
    parseRuleChars (renderRuleChars lhs rhs) = .ok (lhs, rhs) := by
  have h2 : (lhsOk lhs && rhsOk rhs && !(rhs == [Sym.T 'ε'])) = true := h
  simp only [Bool.and_eq_true, Bool.not_eq_true'] at h2
  obtain ⟨⟨hl, hr⟩, hε⟩ := h2
  cases lhs with
  | T c => cases hl
  | N v =>
    obtain ⟨vd⟩ := v
    rcases hvd : vd with _ | ⟨c0, t0⟩
    · subst hvd; cases hl
    · subst hvd
      have hl2 : (c0.isUpper && decide ((c0 :: t0).length ≤ 3)
          && (c0 :: t0).all (fun ch => !ch.isWhitespace && decide (ch ≠ '-'))) = true := hl
      simp only [Bool.and_eq_true, decide_eq_true_eq, List.all_eq_true,
        Bool.not_eq_true'] at hl2
      obtain ⟨⟨hup, hlen⟩, hchars⟩ := hl2
      have hnws : ∀ ch ∈ (c0 :: t0), ch.isWhitespace = false :=
        fun ch hch => ((hchars ch hch).1)
      have hnodash : '-' ∉ (c0 :: t0) := by
        intro hmem
        exact absurd rfl ((hchars '-' hmem).2)
      set body : List Char := if rhs = [] then "ε".data else joinSpaced rhs with hbody
      have hbodyne : (' ' :: body : List Char) ≠ [] := by simp
      have hnoarrow : noArrowB (' ' :: body) = true := by
        rw [hbody]
        by_cases hrn : rhs = []
        · rw [if_pos hrn]; decide
        · rw [if_neg hrn]
          rcases rhs with _ | ⟨x, xs⟩
          · exact absurd rfl hrn
          · exact noArrowB_cons_intro ' ' _ (by decide) (joinSpaced_noArrowB _ hr)
      have hsplit : splitArrow (renderRuleChars (Sym.N ⟨c0 :: t0⟩) rhs)
          = [(c0 :: t0) ++ [' '], ' ' :: body] := by
        show splitArrowGo ((c0 :: t0) ++ ' ' :: '-' :: '>' :: ' ' :: body) []
          = [(c0 :: t0) ++ [' '], ' ' :: body]
        rw [splitArrowGo_passes (c0 :: t0) hnodash _ [] (by simp)]
        rw [splitArrowGo_two, if_neg (by simp)]
        rw [splitArrowGo_two, if_pos ⟨rfl, rfl⟩]
        rw [splitArrowGo_noArrow (' ' :: body) hnoarrow []]
        simp
      have hlhsdec : mkNonterminal ⟨pyStrip ((c0 :: t0) ++ [' '])⟩
          = .ok (Sym.N ⟨c0 :: t0⟩) := by
        rw [pyStrip_append_space (c0 :: t0) (by simp) hnws]
        exact mkNonterminal_ok c0 t0 hup hlen
      unfold parseRuleChars
      rw [hsplit]
      simp only [parseParts, hlhsdec]
      by_cases hrn : rhs = []
      · subst hrn
        have hbv : body = "ε".data := by rw [hbody]; rfl
        rw [hbv]
        rw [show pyStrip (' ' :: "ε".data) = "ε".data from by decide]
        rw [if_pos (Or.inr (Or.inr (Or.inr rfl)))]
      · rcases rhs with _ | ⟨x, xs⟩
        · exact absurd rfl hrn
        · have hbv : body = joinSpaced (x :: xs) := by rw [hbody, if_neg hrn]
          have hstrip : pyStrip (' ' :: body) = body := by
            rw [pyStrip_cons_space, hbv]
            exact pyStrip_no_ws_ends _ (joinSpaced_head_not_ws _ hr)
              (joinSpaced_last_not_ws _ hr)
          rw [hstrip]
          have hcond : ¬(body = [] ∨ (body ≠ [] ∧ body.all Char.isWhitespace = true)
              ∨ body = "eps".data ∨ body = "ε".data) := by
            rw [hbv]
            push_neg
            refine ⟨joinSpaced_ne_nil x xs (rhsOk_head x xs hr), ?_, ?_, ?_⟩
            · intro _
              rw [joinSpaced_not_all_ws x xs hr]
              simp
            · exact joinSpaced_ne_eps _ hr
            · exact joinSpaced_ne_epsilon _ hr hε
          rw [if_neg hcond]
          rw [hbv, joinSpaced_filter _ hr]
          rw [show tokenizeRHS (joinValsChars (x :: xs)) []
              = tokenizeRHSF ((joinValsChars (x :: xs)).length + 1)
                (joinValsChars (x :: xs)) [] from rfl]
          rw [tokF_roundtrip (x :: xs) [] _ hr (by omega) (guard_empty _)]
          rfl

/-- Witness for C4's amended theorem at the rule
`S -> A5' x 5 B` (a three-character nonterminal token, two terminals, and a
following nonterminal), which decodes back to itself. -/
theorem c4_roundtrip_witness :
    parseRuleChars (renderRuleChars (Sym.N "S")
      [Sym.N ⟨['A', '5', apoC]⟩, Sym.T 'x', Sym.T '5', Sym.N "B"])
    = .ok (Sym.N "S",
      [Sym.N ⟨['A', '5', apoC]⟩, Sym.T 'x', Sym.T '5', Sym.N "B"]) :=
  c4_roundtrip _ _ (by decide)

end CykModel
